import Mathlib

/-
  Verification development for the TNChatbot hybrid retrieval core
  (backend/app/rag/retrieve.py and backend/app/rag/ingest.py).

  The Python functions are shallowly embedded as executable Lean
  definitions.  Machine floats are modelled as exact rationals (ℚ);
  Python dictionaries are modelled as insertion-ordered association
  lists with Python dict update semantics; the external services the
  pipeline calls (embedding service, Qdrant vector search, the SQL
  corpus behind the BM25 ranker, the source-file directory) are
  modelled as explicit oracle parameters, so each pipeline becomes a
  pure function of the oracle and of its arguments.  Environment
  variables read inside the Python functions become explicit
  configuration arguments (their defaults are noted at each
  definition).
-/

namespace TNRag

/-! ### Python string primitives

`str.split()` (whitespace tokenisation, no empty words), `str.strip()`,
and `" ".join(...)`, modelled on `List Char`. -/

/-- One scanning step of Python `str.split()`: `splitWordsAux cs acc`
walks `cs` while `acc` holds the reversed characters of the word in
progress; a whitespace character ends the current word, and the end of
the input flushes it. -/
def splitWordsAux : List Char → List Char → List (List Char)
  | [], acc => if acc = [] then [] else [acc.reverse]
  | c :: cs, acc =>
      if c.isWhitespace then
        if acc = [] then splitWordsAux cs []
        else acc.reverse :: splitWordsAux cs []
      else splitWordsAux cs (c :: acc)

/-- Python `text.split()`: split on runs of whitespace; never returns
empty words. -/
def splitWords (cs : List Char) : List (List Char) :=
  splitWordsAux cs []

/-- Python `" ".join(words)`. -/
def joinWords : List (List Char) → List Char
  | [] => []
  | [w] => w
  | w :: ws => w ++ ' ' :: joinWords ws

/-- Python `s.strip()`: drop leading and trailing whitespace. -/
def stripChars (cs : List Char) : List Char :=
  ((cs.dropWhile Char.isWhitespace).reverse.dropWhile Char.isWhitespace).reverse

/-! ### Stable descending sort

Python's `sorted(..., reverse=True)` and `list.sort(..., reverse=True)`
are stable: elements with equal keys keep their original relative
order.  We model them with a stable insertion sort parameterised by a
key function into a linear order. -/

/-- Insert `x` into `l` for a descending-by-key order; `x` goes in
front of the first element whose key is not larger, which makes the
resulting sort stable. -/
def insertDescBy {α K : Type} [LinearOrder K] (key : α → K) (x : α) : List α → List α
  | [] => [x]
  | y :: ys => if key x < key y then y :: insertDescBy key x ys else x :: y :: ys

/-- Stable sort by descending key, modelling `sorted(l, key=key, reverse=True)`. -/
def sortDescBy {α K : Type} [LinearOrder K] (key : α → K) : List α → List α
  | [] => []
  | x :: xs => insertDescBy key x (sortDescBy key xs)

/-! ### Python dict helpers

Python dicts preserve insertion order; updating an existing key keeps
its position.  We model the dicts used by the fusion code as
association lists with exactly that behaviour. -/

/-- `d[k] = d.get(k, 0.0) + x` on an insertion-ordered dict. -/
def dictAddQ (k : String) (x : ℚ) : List (String × ℚ) → List (String × ℚ)
  | [] => [(k, x)]
  | (k0, v) :: rest =>
      if k0 = k then (k0, v + x) :: rest else (k0, v) :: dictAddQ k x rest

/-- `d[k] = v` (overwrite, keep position) on an insertion-ordered dict. -/
def dictSet {β : Type} (k : String) (v : β) : List (String × β) → List (String × β)
  | [] => [(k, v)]
  | (k0, v0) :: rest =>
      if k0 = k then (k0, v) :: rest else (k0, v0) :: dictSet k v rest

/-- `d.setdefault(k, v)` on an insertion-ordered dict. -/
def dictSetdefault {β : Type} (k : String) (v : β) : List (String × β) → List (String × β)
  | [] => [(k, v)]
  | (k0, v0) :: rest =>
      if k0 = k then (k0, v0) :: rest else (k0, v0) :: dictSetdefault k v rest

/-- `d.get(k)` on an association list. -/
def alookup {β : Type} (k : String) : List (String × β) → Option β
  | [] => none
  | (k0, v) :: rest => if k0 = k then some v else alookup k rest

/-- `d.get(k, 0.0)`. -/
def alookupQ (k : String) (m : List (String × ℚ)) : ℚ :=
  (alookup k m).getD 0

/-- `dict.fromkeys(l)` key order: first occurrences, in order;
`seen` collects the keys already emitted. -/
def pyDedupAux : List String → List String → List String
  | [], _ => []
  | x :: xs, seen =>
      if x ∈ seen then pyDedupAux xs seen else x :: pyDedupAux xs (x :: seen)

/-- `dict.fromkeys(l)` key order. -/
def pyDedup (l : List String) : List String :=
  pyDedupAux l []

/-! ### Substring tests and `str.lower` -/

/-- `listStartsWith pat l` : `pat` is a prefix of `l`. -/
def listStartsWith : List Char → List Char → Bool
  | [], _ => true
  | _ :: _, [] => false
  | p :: ps, c :: cs => p = c && listStartsWith ps cs

/-- `containsSeq pat l` : `pat` occurs contiguously inside `l`
(Python `pat in l`). -/
def containsSeq (pat : List Char) : List Char → Bool
  | [] => listStartsWith pat []
  | c :: cs => listStartsWith pat (c :: cs) || containsSeq pat cs

/-- Python `sub in s` on strings. -/
def pyContains (sub s : String) : Bool :=
  containsSeq sub.data s.data

/-- Python `str.lower()` character-wise.  Lean's `Char.toLower` folds
only ASCII letters; Python also folds accented letters.  The strings
this repository matches against (`"coute"`, `"live"`, stop-words,
intent names) are unaffected. -/
def pyLower (c : Char) : Char := c.toLower

/-- Python `s.lower()`. -/
def lowerStr (s : String) : String := String.mk (s.data.map pyLower)

/-- Python `s.strip()` on strings. -/
def stripStr (s : String) : String := String.mk (stripChars s.data)

/-! ### Lexical tokenizer (`_tokenize_lexical`, retrieve.py lines 314-317) -/

/-- `LEXICAL_STOPWORDS` (retrieve.py lines 96-99). -/
def LEXICAL_STOPWORDS : List String :=
  ["le", "la", "les", "de", "du", "des", "un", "une", "et", "ou", "en", "sur", "dans",
   "pour", "avec", "au", "aux", "est", "sont", "que", "qui", "quoi", "quel", "quelle",
   "quels", "quelles"]

/-- The regex class `\w` of `re.sub(r"[^\w\s]", " ", ...)`.
Approximation: ASCII alphanumerics, the underscore, and every
non-ASCII character count as word characters (Python's Unicode `\w`
additionally excludes non-ASCII punctuation, which none of the claims
turn on). -/
def isWordChar (c : Char) : Bool :=
  c.isAlphanum || c = '_' || 127 < c.toNat

/-- `_tokenize_lexical`: lowercase, replace characters that are neither
word characters nor whitespace by a space, split on whitespace, drop
stop-words. -/
def tokenize_lexical (text : String) : List String :=
  let lowered := text.data.map pyLower
  let normalized := lowered.map (fun c => if isWordChar c || c.isWhitespace then c else ' ')
  ((splitWords normalized).map String.mk).filter
    (fun t => !(t == "") && !(LEXICAL_STOPWORDS.contains t))

/-- `_lexical_overlap_score` (retrieve.py lines 320-328): fraction of
the query's (non-stop-word, multiplicity-counted) tokens present in
the content. -/
def lexical_overlap_score (query content : String) : ℚ :=
  let query_tokens := tokenize_lexical query
  if query_tokens = [] then 0
  else
    let content_tokens := tokenize_lexical content
    if content_tokens = [] then 0
    else
      let overlap_count := (query_tokens.filter (fun t => content_tokens.contains t)).length
      (overlap_count : ℚ) / ((max 1 query_tokens.length : ℕ) : ℚ)

/-! ### `rewrite_query` (retrieve.py lines 346-356) -/

/-- The `expansion_tokens` accumulated by `rewrite_query` from its
lowered query. -/
def rewriteExpansionTokens (lowered : String) : List String :=
  (if pyContains "coûte" lowered || pyContains "coute" lowered
   then ["prix", "tarif"] else []) ++
  (if pyContains "communiqué" lowered || pyContains "communique" lowered
   then ["communiqué de presse", "CP", "diffusion presse"] else []) ++
  (if pyContains "live" lowered
   then ["vidéo live", "couverture live", "Facebook", "YouTube"] else [])

/-- `rewrite_query`: keyword-triggered query expansion.  The expansion
tokens are appended to the stripped original query, de-duplicated with
`dict.fromkeys` over the *list elements* (the whole original query is
a single element), joined with spaces and stripped. -/
def rewrite_query (query : String) : String :=
  let expansion_tokens := rewriteExpansionTokens (lowerStr query)
  let rewritten := stripStr (String.mk (joinWords
    ((pyDedup (stripStr query :: expansion_tokens)).map String.data)))
  if rewritten = "" then query else rewritten

/-! ### `chunk_text` (retrieve.py lines 160-173 = ingest.py lines 77-90)

The Python `while` loop advances `start` by `window − overlap` each
iteration and is modelled with explicit fuel `words.length + 1`; the
fuel is never exhausted when `overlap < max_tokens` (proved as part of
claim C6). -/

def chunkWindowsGo (words : List (List Char)) (maxTokens overlap : Nat) :
    Nat → Nat → List (List (List Char))
  | 0, _ => []
  | fuel + 1, start =>
      let n := words.length
      let e := min (start + maxTokens) n
      let w := (words.drop start).take (e - start)
      if e = n then [w]
      else w :: chunkWindowsGo words maxTokens overlap fuel (e - overlap)

/-- The word-level windows of `chunk_text`. -/
def chunkWindows (words : List (List Char)) (maxTokens overlap : Nat) :
    List (List (List Char)) :=
  if words = [] then [] else chunkWindowsGo words maxTokens overlap (words.length + 1) 0

/-- `chunk_text(text, max_tokens, overlap)`. -/
def chunk_text (text : String) (maxTokens overlap : Nat) : List String :=
  let words := (splitWords text.data).filter (fun w => !(stripChars w).isEmpty)
  (chunkWindows words maxTokens overlap).map (fun w => String.mk (joinWords w))

/-- Number of whitespace-delimited words of a string. -/
def wordCount (s : String) : Nat := (splitWords s.data).length

/-- The start offsets of the windows produced by the chunking loop. -/
def chunkStartsGo (n maxTokens overlap : Nat) : Nat → Nat → List Nat
  | 0, _ => []
  | fuel + 1, start =>
      if start + maxTokens < n then
        start :: chunkStartsGo n maxTokens overlap fuel (start + maxTokens - overlap)
      else [start]

/-! ### Retrieval data model

`RetrievedChunk` (retrieve.py lines 141-146).  Relevance scores are
IEEE doubles in Python and exact rationals here; point identifiers are
strings (Qdrant also allows integers, which the fusion code passes
through `str(...)` anyway). -/

structure Payload where
  intent : Option String := none
  source_uri : Option String := none
  title : Option String := none
  content : String := ""
deriving DecidableEq, Repr

structure RetrievedChunk where
  content : String
  score : ℚ
  payload : Payload
  point_id : Option String := none
deriving DecidableEq, Repr

/-- `str(chunk.point_id)`: Python renders `None` as the string
`"None"`. -/
def rrfKey (c : RetrievedChunk) : String :=
  c.point_id.getD "None"

/-! ### Reciprocal rank fusion (retrieve.py lines 420-437)

`RAG_RRF_K` (default 60) is passed explicitly as `rrfK`. -/

def reciprocal_rank_fusion (rrfK : ℚ) (vector_results keyword_results : List RetrievedChunk)
    (top_k : Nat) : List RetrievedChunk :=
  let fused1 := vector_results.enum.foldl
    (fun m ic => dictAddQ (rrfKey ic.2) (1 / (rrfK + ic.1 + 1)) m) []
  let fused_scores := keyword_results.enum.foldl
    (fun m ic => dictAddQ (rrfKey ic.2) (1 / (rrfK + ic.1 + 1)) m) fused1
  let byId1 := vector_results.foldl (fun m c => dictSet (rrfKey c) c m) []
  let by_id := keyword_results.foldl (fun m c => dictSetdefault (rrfKey c) c m) byId1
  let ordered_ids := (sortDescBy (fun kv => kv.2) fused_scores).map Prod.fst
  (ordered_ids.take top_k).filterMap (fun id => alookup id by_id)

/-- Specification-side rank sum: walking a list with 1-based ranks,
each occurrence of `id` contributes `1/(K + rank)`. -/
def rrfRankSum (rrfK : ℚ) (id : String) : List RetrievedChunk → ℕ → ℚ
  | [], _ => 0
  | c :: rest, rank =>
      (if rrfKey c = id then 1 / (rrfK + rank) else 0)
        + rrfRankSum rrfK id rest (rank + 1)

/-- Specification-side contribution of one ranked list to `id`'s fused
score: the sum of `1/(K + rank)` over the (1-based) ranks at which
`id` appears. -/
def rrfContrib (rrfK : ℚ) (l : List RetrievedChunk) (id : String) : ℚ :=
  rrfRankSum rrfK id l 1

/-- Specification-side fused score over both input lists. -/
def claimFusedScore (rrfK : ℚ) (vec kw : List RetrievedChunk) (id : String) : ℚ :=
  rrfContrib rrfK vec id + rrfContrib rrfK kw id

/-! ### Lexical reranker (retrieve.py lines 331-343)

`RAG_LEXICAL_WEIGHT` (default 0.35) is passed explicitly; the code
clamps it into `[0, 1]`.  Python sorts the triples
`(combined_score, lexical_score, chunk.score)` in reverse, i.e.
descending lexicographically, with a stable sort. -/

def rerankTriple (lexical_weight : ℚ) (query : String) (chunk : RetrievedChunk) :
    ℚ × ℚ × RetrievedChunk :=
  let semantic_weight := 1 - lexical_weight
  let lexical_score := lexical_overlap_score query chunk.content
  (semantic_weight * chunk.score + lexical_weight * lexical_score, lexical_score, chunk)

def rerank_chunks_lexical (lexicalWeightCfg : ℚ) (query : String)
    (chunks : List RetrievedChunk) : List RetrievedChunk :=
  let lexical_weight := max 0 (min 1 lexicalWeightCfg)
  let scored_chunks := chunks.map (rerankTriple lexical_weight query)
  (sortDescBy (fun item => toLex (item.1, toLex (item.2.1, item.2.2.score)))
    scored_chunks).map (fun item => item.2.2)

/-- The blended score of §4.6 of the spec, written independently of the
implementation: `(1 − w)·originalScore + w·overlapFraction`. -/
def claimBlendedScore (w : ℚ) (query : String) (chunk : RetrievedChunk) : ℚ :=
  (1 - w) * chunk.score + w * lexical_overlap_score query chunk.content

/-! ### BM25 keyword search (retrieve.py lines 359-417)

The SQL corpus is modelled as the list `rows` of fetched rows, in the
order the query returns them: filtered by the intent `LIKE` pre-filter,
ordered by `created_at DESC` (most recent first) and limited to the
3000-row window.  `k1 = 1.5 = 3/2`, `b = 0.75 = 3/4`,
`1e-6 = 1/1000000`. -/

structure BmRow where
  id : String
  content : String
  source_uri : Option String := none
  title : Option String := none
deriving DecidableEq, Repr

def termFreq (tokens : List String) (t : String) : Nat :=
  (tokens.filter (fun x => x == t)).length

def docFreq (docsTokens : List (List String)) (t : String) : Nat :=
  (docsTokens.filter (fun toks => toks.contains t)).length

def bm25AvgDl (docsTokens : List (List String)) : ℚ :=
  ((docsTokens.map List.length).sum : ℚ) / ((max 1 docsTokens.length : ℕ) : ℚ)

/-- `idf = max(0.0, (len(rows) - n_qi + 0.5) / (n_qi + 0.5))`. -/
def bm25Idf (numRows df_t : Nat) : ℚ :=
  max 0 (((numRows : ℚ) - (df_t : ℚ) + 1/2) / ((df_t : ℚ) + 1/2))

/-- `denom = freq + k1 * (1 - b + b * doc_len / max(1.0, avgdl))`. -/
def bm25Denom (freq docLen : Nat) (avgdl : ℚ) : ℚ :=
  (freq : ℚ) + (3/2) * (1 - 3/4 + (3/4) * (docLen : ℚ) / max 1 avgdl)

/-- One query term's contribution to a document's BM25 score; a term
with zero frequency in the document contributes nothing. -/
def bm25TermContribution (numRows : Nat) (avgdl : ℚ) (df_t freq docLen : Nat) : ℚ :=
  if freq = 0 then 0
  else bm25Idf numRows df_t * ((freq : ℚ) * (3/2 + 1)) /
    max (1/1000000) (bm25Denom freq docLen avgdl)

/-- The scoring loop of `keyword_search_bm25` for one document. -/
def bm25DocScore (numRows : Nat) (avgdl : ℚ) (df : String → Nat)
    (queryTerms : List String) (tokens : List String) : ℚ :=
  queryTerms.foldl (fun score term =>
    let freq := termFreq tokens term
    if freq = 0 then score
    else score + bm25Idf numRows (df term) * ((freq : ℚ) * (3/2 + 1)) /
      max (1/1000000) (bm25Denom freq (max 1 tokens.length) avgdl)) 0

def keyword_search_bm25 (query : String) (top_k : Nat) (rows : List BmRow) :
    List RetrievedChunk :=
  let query_terms := tokenize_lexical query
  if query_terms = [] then []
  else if rows = [] then []
  else
    let docs_tokens := rows.map (fun r => tokenize_lexical r.content)
    let avgdl := bm25AvgDl docs_tokens
    let scored := rows.map (fun r =>
      (bm25DocScore rows.length avgdl (docFreq docs_tokens) query_terms
        (tokenize_lexical r.content), r))
    let positive := scored.filter (fun sr => 0 < sr.1)
    ((sortDescBy (fun sr => sr.1) positive).take top_k).map (fun sr =>
      { content := sr.2.content
        score := sr.1
        payload := { source_uri := sr.2.source_uri, title := sr.2.title,
                     content := sr.2.content }
        point_id := some sr.2.id })

/-! ### Intent normalisation and source-name matching
(retrieve.py lines 506-531) -/

/-- The path component after the last `/`. -/
def afterLastSlash (cs : List Char) : List Char :=
  (cs.reverse.takeWhile (fun c => c ≠ '/')).reverse

/-- Drop the final `.suffix` of a file name, as `pathlib.Path(...).stem`
does: no dot, or only a leading dot, leaves the name unchanged. -/
def dropLastDotSuffix (name : List Char) : List Char :=
  let revName := name.reverse
  let afterDotRev := revName.takeWhile (fun c => c ≠ '.')
  if afterDotRev.length = revName.length then name
  else
    let stemRev := revName.drop (afterDotRev.length + 1)
    if stemRev = [] then name else stemRev.reverse

/-- `pathlib.Path(s).stem`. -/
def pathStem (s : String) : String :=
  String.mk (dropLastDotSuffix (afterLastSlash s.data))

/-- `pathlib.Path(s).suffix`. -/
def pathSuffix (s : String) : String :=
  let name := afterLastSlash s.data
  let revName := name.reverse
  let afterDotRev := revName.takeWhile (fun c => c ≠ '.')
  if afterDotRev.length = revName.length then ""
  else if revName.drop (afterDotRev.length + 1) = [] then ""
  else String.mk ('.' :: afterDotRev.reverse)

/-- `normalize_intent`: trim and lower-case; empty results become
`None`. -/
def normalize_intent (intent : Option String) : Option String :=
  match intent with
  | none => none
  | some s =>
      if s = "" then none
      else
        let normalized := lowerStr (stripStr s)
        if normalized = "" then none else some normalized

/-- `re.sub(r"[\s\-]+", "_", stem)`: collapse every run of whitespace
or hyphens into one underscore; `inSep` records whether the previous
character belonged to such a run. -/
def collapseSepsAux : List Char → Bool → List Char
  | [], _ => []
  | c :: cs, inSep =>
      if c.isWhitespace || c = '-' then
        if inSep then collapseSepsAux cs true
        else '_' :: collapseSepsAux cs true
      else c :: collapseSepsAux cs false

/-- `re.sub(r"[\s\-]+", "_", stem)`. -/
def collapseSeps (cs : List Char) : List Char :=
  collapseSepsAux cs false

/-- `normalize_source_name` (retrieve.py lines 513-518). -/
def normalize_source_name (source_name : Option String) : Option String :=
  match source_name with
  | none => none
  | some s =>
      if s = "" then none
      else
        let stem := lowerStr (stripStr (pathStem s))
        let stem2 := String.mk (collapseSeps stem.data)
        if stem2 = "" then none else some stem2

/-- Python `s.startswith(pre)`. -/
def strStartsWith (pre s : String) : Bool :=
  listStartsWith pre.data s.data

/-- `source_matches_intent` (retrieve.py lines 521-531). -/
def source_matches_intent (payload : Payload) (intent : String) : Bool :=
  let payload_intent := normalize_intent (some (payload.intent.getD ""))
  if payload_intent = some intent then true
  else
    let source_name := normalize_source_name payload.source_uri
    let title_name := normalize_source_name payload.title
    (match source_name with
     | some sn => sn = intent || strStartsWith (intent ++ "_") sn
     | none => false) ||
    (match title_name with
     | some tn => tn = intent || pyContains intent tn
     | none => false)

/-! ### Configuration and the file-based intent fallback
(`load_intent_chunks`, retrieve.py lines 534-567) -/

/-- The environment-variable configuration of `retrieve_rag_context`,
with its defaults: `RAG_TOP_K = 3`, `RAG_SCORE_THRESHOLD = 0.45`,
`RAG_LEXICAL_WEIGHT = 0.35`, `RAG_RRF_K = 60`, `RAG_CHUNK_SIZE = 400`,
`RAG_CHUNK_OVERLAP = 80`. -/
structure RagConfig where
  topK : Nat := 3
  scoreThreshold : ℚ := 45/100
  lexicalWeight : ℚ := 35/100
  rrfK : ℚ := 60
  chunkSize : Nat := 400
  chunkOverlap : Nat := 80
deriving Repr

/-- A file of the `KB_SOURCES_DIR` directory; `load_intent_chunks`
iterates `sorted(sources_dir.iterdir())`, so the model receives the
listing already sorted by name, directories excluded. -/
structure SourceFile where
  name : String
  text : String
deriving DecidableEq, Repr

def loadIntentGo (cfg : RagConfig) (intent : String) :
    List SourceFile → List RetrievedChunk
  | [] => []
  | f :: rest =>
      if ¬ (lowerStr (pathSuffix f.name) = ".md" ∨ lowerStr (pathSuffix f.name) = ".txt")
      then loadIntentGo cfg intent rest
      else
        match normalize_source_name (some (pathStem f.name)) with
        | none => loadIntentGo cfg intent rest
        | some nn =>
            if nn ≠ intent ∧ ¬ strStartsWith (intent ++ "_") nn
            then loadIntentGo cfg intent rest
            else
              let text := stripStr f.text
              if text = "" then loadIntentGo cfg intent rest
              else
                (chunk_text text cfg.chunkSize cfg.chunkOverlap).enum.map (fun ic =>
                  { content := ic.2
                    score := 1
                    payload := { content := ic.2, intent := some intent,
                                 source_uri := some f.name,
                                 title := some (pathStem f.name) }
                    point_id := some ("file:" ++ pathStem f.name ++ ":"
                      ++ toString (ic.1 + 1)) })

/-- `load_intent_chunks`: `none` models a missing sources directory
(the function logs a warning and returns `[]`); otherwise the chunks of
the *first* file whose normalized stem matches the intent exactly or
with an `intent_` prefix are returned with score 1.0. -/
def load_intent_chunks (cfg : RagConfig) (files : Option (List SourceFile))
    (intent : String) : List RetrievedChunk :=
  match files with
  | none => []
  | some fs => loadIntentGo cfg intent fs

/-! ### The retrieval pipeline (retrieve.py lines 590-726)

The two external searches are oracles: `search th i` is
`search_qdrant(vector, retrieval_limit, th, i)` (the embedded query
vector and the retrieval limit are fixed across all calls of one
request), and `keyword` is the one call
`keyword_search_bm25(rewritten_query, resolved_top_k, normalized_intent)`.
`INTENT_SCORE_THRESHOLD_FALLBACKS` maps `audience`, `overview` and
`solutions` to threshold 0.  No `COHERE_API_KEY` is configured, so
`rerank_chunks_cross_encoder` deterministically falls back to
`rerank_chunks_lexical`. -/

structure RagEnv where
  search : Option ℚ → Option String → List RetrievedChunk
  keyword : List RetrievedChunk
  files : Option (List SourceFile)

def INTENT_SCORE_THRESHOLD_FALLBACKS : List (String × ℚ) :=
  [("audience", 0), ("overview", 0), ("solutions", 0)]

def intentThresholdFallback (intent : String) : Option ℚ :=
  alookup intent INTENT_SCORE_THRESHOLD_FALLBACKS

/-- Trace of one `retrieve_rag_context` run: the intermediate variables
of the Python function (`semantic_chunks`, the working set `chunks` at
the intent-filter point, `filtered_chunks`, `best_chunks`) and the
`search_qdrant` calls that were issued, as `(score_threshold, intent)`
pairs. -/
structure RagTrace where
  primaryFused : List RetrievedChunk
  workingAtFilter : List RetrievedChunk
  filteredAtIntent : List RetrievedChunk
  afterIntentFilter : List RetrievedChunk
  usedFileFallback : Bool
  selected : List RetrievedChunk
  searchCalls : List (Option ℚ × Option String)
deriving DecidableEq, Repr

def retrieveRagPipeline (cfg : RagConfig) (env : RagEnv) (query : String)
    (intent : Option String) : RagTrace :=
  let rewritten := rewrite_query query
  let nIntent := normalize_intent intent
  let primary := env.search (some cfg.scoreThreshold) nIntent
  let fused := reciprocal_rank_fusion cfg.rrfK primary env.keyword cfg.topK
  let semantic := fused
  let afterFallback :=
    if fused = [] then
      match intentThresholdFallback (nIntent.getD "") with
      | some ft =>
          if ft ≠ cfg.scoreThreshold then
            let c1 := env.search (some ft) nIntent
            if c1 = [] then
              (env.search none nIntent,
               [(some cfg.scoreThreshold, nIntent), (some ft, nIntent), (none, nIntent)])
            else (c1, [(some cfg.scoreThreshold, nIntent), (some ft, nIntent)])
          else
            (env.search none nIntent,
             [(some cfg.scoreThreshold, nIntent), (none, nIntent)])
      | none =>
          (env.search none nIntent,
           [(some cfg.scoreThreshold, nIntent), (none, nIntent)])
    else (fused, [(some cfg.scoreThreshold, nIntent)])
  let chunks1 := afterFallback.1
  let calls1 := afterFallback.2
  match nIntent with
  | none =>
      let reranked := rerank_chunks_lexical cfg.lexicalWeight rewritten chunks1
      { primaryFused := fused, workingAtFilter := [], filteredAtIntent := [],
        afterIntentFilter := chunks1, usedFileFallback := false,
        selected := reranked.take cfg.topK, searchCalls := calls1 }
  | some i =>
      let filtered0 := chunks1.filter (fun c => source_matches_intent c.payload i)
      if filtered0 = [] ∧ semantic ≠ [] then
        let reranked := rerank_chunks_lexical cfg.lexicalWeight rewritten semantic
        { primaryFused := fused, workingAtFilter := chunks1,
          filteredAtIntent := filtered0, afterIntentFilter := semantic,
          usedFileFallback := false, selected := reranked.take cfg.topK,
          searchCalls := calls1 }
      else if filtered0 = [] then
        let c2 := env.search (some cfg.scoreThreshold) none
        let afterRetry :=
          if c2 = [] then
            (env.search none none,
             calls1 ++ [(some cfg.scoreThreshold, (none : Option String)),
                        (none, (none : Option String))])
          else (c2, calls1 ++ [(some cfg.scoreThreshold, (none : Option String))])
        let c3 := afterRetry.1
        let calls3 := afterRetry.2
        let filtered1 := c3.filter (fun c => source_matches_intent c.payload i)
        let fileStep :=
          if filtered1 = [] then
            ((load_intent_chunks cfg env.files i).take cfg.topK, true)
          else (filtered1, false)
        let chunksF := if fileStep.1 = [] then c3 else fileStep.1
        let reranked := rerank_chunks_lexical cfg.lexicalWeight rewritten chunksF
        { primaryFused := fused, workingAtFilter := chunks1,
          filteredAtIntent := filtered0, afterIntentFilter := chunksF,
          usedFileFallback := fileStep.2, selected := reranked.take cfg.topK,
          searchCalls := calls3 }
      else
        let reranked := rerank_chunks_lexical cfg.lexicalWeight rewritten filtered0
        { primaryFused := fused, workingAtFilter := chunks1,
          filteredAtIntent := filtered0, afterIntentFilter := filtered0,
          usedFileFallback := false, selected := reranked.take cfg.topK,
          searchCalls := calls1 }

/-- The tail of `retrieve_rag_context` (retrieve.py lines 726-740).
`best_chunks` is `reranked[:top_k]`; for a non-empty selection the code
executes `chunk.content = _focus_chunk_content_for_query(...)`, but
`RetrievedChunk` is declared `@dataclass(frozen=True)` (line 141), so
this assignment raises `dataclasses.FrozenInstanceError`.  Only the
empty selection reaches `build_rag_context`, which renders `""`. -/
def retrieveRagContextE (cfg : RagConfig) (env : RagEnv) (query : String)
    (intent : Option String) : Except String String :=
  let t := retrieveRagPipeline cfg env query intent
  if t.selected = [] then Except.ok ""
  else Except.error "dataclasses.FrozenInstanceError: cannot assign to field content"

/-! ### `retrieve_rag_selection` (retrieve.py lines 743-753) -/

/-- Prepend a character to the first piece of a split. -/
def consHeadNN (c : Char) : List (List Char) → List (List Char)
  | [] => [[c]]
  | w :: ws => (c :: w) :: ws

/-- Python `context.split("\n\n")` (greedy, leftmost,
non-overlapping; empties preserved). -/
def splitNN : List Char → List (List Char)
  | [] => [[]]
  | '\n' :: '\n' :: rest => [] :: splitNN rest
  | c :: rest => consHeadNN c (splitNN rest)

/-- `"\n\n".join(...)`. -/
def joinNN : List (List Char) → List Char
  | [] => []
  | [w] => w
  | w :: ws => w ++ '\n' :: '\n' :: joinNN ws

structure SelChunk where
  content : String
deriving DecidableEq, Repr

structure RagSelection where
  context : String
  selected_chunks : List SelChunk
deriving DecidableEq, Repr

/-- Lines 749-753: wrap a context string into a `RagSelection`; an
empty (falsy) context yields no selected chunks, otherwise one
`{"content": chunk}` entry per `"\n\n"`-separated segment. -/
def ragSelectionOfContext (context : String) : RagSelection :=
  { context := context
    selected_chunks :=
      if context = "" then []
      else (splitNN context.data).map (fun w => { content := String.mk w }) }

def retrieveRagSelectionE (cfg : RagConfig) (env : RagEnv) (query : String)
    (intent : Option String) : Except String RagSelection :=
  (retrieveRagContextE cfg env query intent).map ragSelectionOfContext

/-! ### `embed_texts` (ingest.py lines 97-215)

Each attempt's outcome is an oracle value: a successful JSON response
(its `data` list of embedding vectors), an `HTTPError` (status code and
body), or a `URLError`/`TimeoutError`.  Wall-clock durations appearing
in log and history strings are oracle-provided opaque strings;
`reprLite` models Python's `repr` of the truncated body as plain
quoting (its escape rules are irrelevant to the claims). -/

inductive EmbedOutcome where
  | success (data : List (List ℚ))
  | httpError (code : Nat) (body : String) (elapsed : String)
  | netError (name msg : String) (elapsed : String)
deriving DecidableEq, Repr

/-- `EMBEDDING_MODEL`, `EMBEDDING_URL`, `EMBEDDING_MAX_RETRIES`
(defaults `text-embedding-3-small`, the local endpoint, 2). -/
structure EmbedConfig where
  model : String := "text-embedding-3-small"
  url : String := "http://localhost:8001/v1/embeddings"
  maxRetries : Nat := 2
deriving DecidableEq, Repr

instance {ε α : Type} [DecidableEq ε] [DecidableEq α] : DecidableEq (Except ε α) :=
  fun a b =>
  match a, b with
  | .ok x, .ok y =>
      if h : x = y then isTrue (by rw [h]) else isFalse (by simp [h])
  | .error x, .error y =>
      if h : x = y then isTrue (by rw [h]) else isFalse (by simp [h])
  | .ok _, .error _ => isFalse (by simp)
  | .error _, .ok _ => isFalse (by simp)

structure EmbedResult where
  result : Except String (List (List ℚ))
  attemptsMade : Nat
  sleeps : List ℚ
deriving DecidableEq, Repr

def reprLite (s : String) : String := "\x27" ++ s ++ "\x27"

def takeStr (n : Nat) (s : String) : String := String.mk (s.data.take n)

def joinSepStr (sep : String) : List String → String
  | [] => ""
  | [s] => s
  | s :: rest => s ++ sep ++ joinSepStr sep rest

/-- `retryable = exc.code == 429 or 500 <= exc.code < 600`. -/
def embedRetryable (code : Nat) : Bool :=
  code == 429 || (500 ≤ code && code < 600)

def httpHistoryEntry (attempt attempts code : Nat) (body elapsed : String) : String :=
  "attempt " ++ toString attempt ++ "/" ++ toString attempts ++ ": HTTP "
    ++ toString code ++ " in " ++ elapsed ++ "s"
    ++ (if body ≠ "" then " body=" ++ reprLite (takeStr 300 body) else "")

def netHistoryEntry (attempt attempts : Nat) (name msg elapsed : String) : String :=
  "attempt " ++ toString attempt ++ "/" ++ toString attempts ++ ": " ++ name
    ++ " in " ++ elapsed ++ "s: " ++ msg

def httpDetail (cfg : EmbedConfig) (code : Nat) (body : String)
    (attempt attempts : Nat) (history : List String) : String :=
  "Embedding request failed (" ++ toString code ++ ") for model \x27" ++ cfg.model
    ++ "\x27 via \x27" ++ cfg.url ++ "\x27"
    ++ (if body ≠ "" then ": " ++ body else "")
    ++ (if 1 < attempts then " after " ++ toString attempt ++ " attempt(s)" else "")
    ++ (if history ≠ [] then ". Attempts: " ++ joinSepStr " | " history else "")

def netDetail (cfg : EmbedConfig) (msg : String)
    (attempt attempts : Nat) (history : List String) : String :=
  "Embedding request failed for model \x27" ++ cfg.model ++ "\x27 via \x27"
    ++ cfg.url ++ "\x27: " ++ msg
    ++ (if 1 < attempts then " after " ++ toString attempt ++ " attempt(s)" else "")
    ++ (if history ≠ [] then ". Attempts: " ++ joinSepStr " | " history else "")

/-- The retry loop `for attempt in range(1, attempts + 1)`.  The fuel
starts at `attempts` and reaches 0 only past the last attempt (the
`response is None` guard of line 201, unreachable because every exit
before exhaustion either raises or breaks). -/
def embedLoop (cfg : EmbedConfig) (texts : List String) (oracle : Nat → EmbedOutcome)
    (attempts : Nat) : Nat → Nat → List String → List ℚ → EmbedResult
  | 0, attempt, _, sleeps =>
      { result := Except.error "Embedding request failed before receiving a response"
        attemptsMade := attempt - 1, sleeps := sleeps }
  | fuel + 1, attempt, history, sleeps =>
      match oracle attempt with
      | .success data =>
          if data.length ≠ texts.length then
            { result := Except.error "Embedding response size mismatch"
              attemptsMade := attempt, sleeps := sleeps }
          else
            { result := Except.ok data, attemptsMade := attempt, sleeps := sleeps }
      | .httpError code body elapsed =>
          let history2 := history ++ [httpHistoryEntry attempt attempts code body elapsed]
          if ¬ embedRetryable code ∨ attempt = attempts then
            { result := Except.error (httpDetail cfg code body attempt attempts history2)
              attemptsMade := attempt, sleeps := sleeps }
          else
            embedLoop cfg texts oracle attempts fuel (attempt + 1) history2
              (sleeps ++ [min ((attempt : ℚ) / 2) 2])
      | .netError name msg elapsed =>
          let history2 := history ++ [netHistoryEntry attempt attempts name msg elapsed]
          if attempt = attempts then
            { result := Except.error (netDetail cfg msg attempt attempts history2)
              attemptsMade := attempt, sleeps := sleeps }
          else
            embedLoop cfg texts oracle attempts fuel (attempt + 1) history2
              (sleeps ++ [min ((attempt : ℚ) / 2) 2])

/-- `embed_texts(texts)` with `attempts = max_retries + 1`. -/
def embed_texts (cfg : EmbedConfig) (oracle : Nat → EmbedOutcome)
    (texts : List String) : EmbedResult :=
  if texts = [] then { result := Except.ok [], attemptsMade := 0, sleeps := [] }
  else embedLoop cfg texts oracle (cfg.maxRetries + 1) (cfg.maxRetries + 1) 1 [] []

/-! ## Claim theorems -/

/-- An all-empty retrieval environment: every search returns nothing
and no source directory exists. -/
def emptyRagEnv : RagEnv :=
  { search := fun _ _ => [], keyword := [], files := none }

/-- A successfully retrieved chunk, as the primary intent-scoped search
would return it. -/
def c1Chunk : RetrievedChunk :=
  { content := "Audience 2024 : 64% hommes"
    score := 9/10
    payload := { intent := some "audience", source_uri := some "audience.md",
                 title := some "audience", content := "Audience 2024 : 64% hommes" }
    point_id := some "p1" }

def c1Env : RagEnv :=
  { search := fun _ _ => [c1Chunk], keyword := [], files := none }

/-- The full (lexicographic) sort key of the blended reranker:
`(blended, overlapFraction, originalScore)`, compared descending. -/
def rerankKey (w : ℚ) (query : String) (c : RetrievedChunk) : ℚ ×ₗ (ℚ ×ₗ ℚ) :=
  toLex ((1 - w) * c.score + w * lexical_overlap_score query c.content,
    toLex (lexical_overlap_score query c.content, c.score))

def c4A : RetrievedChunk :=
  { content := "tarif communiqué 900", score := 0, payload := {}, point_id := some "A" }

def c4B : RetrievedChunk :=
  { content := "autre sujet", score := 100, payload := {}, point_id := some "B" }

def c3a : RetrievedChunk :=
  { content := "vec top", score := 1, payload := {}, point_id := some "A" }

def c3b : RetrievedChunk :=
  { content := "vec second", score := 1, payload := {}, point_id := some "B" }

def c3a2 : RetrievedChunk :=
  { content := "kw top", score := 1, payload := {}, point_id := some "A" }

/-! ### Lemmas and theorem for claim C5 -/

/-- The tokenized corpus of one BM25 call. -/
def bm25Docs (rows : List BmRow) : List (List String) :=
  rows.map (fun r => tokenize_lexical r.content)

/-- The BM25 score `keyword_search_bm25` assigns to one row. -/
def bm25RowScore (query : String) (rows : List BmRow) (r : BmRow) : ℚ :=
  bm25DocScore rows.length (bm25AvgDl (bm25Docs rows)) (docFreq (bm25Docs rows))
    (tokenize_lexical query) (tokenize_lexical r.content)

/-- The projection from a scored row to the returned chunk. -/
def bm25MkChunk (sr : ℚ × BmRow) : RetrievedChunk :=
  { content := sr.2.content
    score := sr.1
    payload := { source_uri := sr.2.source_uri, title := sr.2.title,
                 content := sr.2.content }
    point_id := some sr.2.id }

/-- A chunk returned by the primary intent-scoped search whose payload
carries the matching intent tag. -/
def c2WChunk : RetrievedChunk :=
  { content := "Box 300x250 : CPM 36 en global."
    score := 1
    payload := { content := "Box 300x250 : CPM 36 en global.",
                 intent := some "formats",
                 source_uri := some "tn_kit_media_training_2025.json",
                 title := some "TN Kit Media 2025" }
    point_id := some "p1" }

def c2WEnv : RagEnv :=
  { search := fun _ _ => [c2WChunk], keyword := [], files := none }

/-- A chunk found only by the *unscoped* fallback search; its payload
does not match intent `"formats"`. -/
def cexC : RetrievedChunk :=
  { content := "Communique de presse : prix de base 900 DT HT."
    score := 1
    payload := { content := "Communique de presse : prix de base 900 DT HT.",
                 intent := none,
                 source_uri := some "pricing.txt",
                 title := some "Tarifs" }
    point_id := some "pC" }

/-- A chunk found only by the later unfiltered-retry search; its
payload matches intent `"formats"`. -/
def cexD : RetrievedChunk :=
  { content := "Box 300x250."
    score := 1
    payload := { content := "Box 300x250.",
                 intent := some "formats",
                 source_uri := some "formats.txt",
                 title := some "Formats" }
    point_id := some "pD" }

/-- Search oracle of the C2 counterexample: the primary scoped search
is empty, the unscoped scoped-threshold fallback returns `cexC`, and
the no-intent retry returns `cexD`. -/
def cexEnv : RagEnv :=
  { search := fun th i =>
      match th, i with
      | some _, some _ => []
      | none, some _ => [cexC]
      | some _, none => [cexD]
      | none, none => []
    keyword := [], files := none }

/-- Source file for the C7 witness environment. -/
def c7WFile : SourceFile :=
  { name := "formats.txt", text := "Box 300x250 : CPM 36." }

def c7WEnv : RagEnv :=
  { search := fun _ _ => [], keyword := [], files := some [c7WFile] }

/-- A keyword-search result whose payload does not match intent
`"formats"`. -/
def c7Kw : RetrievedChunk :=
  { content := "Les contenus sponsorises incluent les communiques."
    score := 1
    payload := { content := "Les contenus sponsorises incluent les communiques.",
                 intent := none,
                 source_uri := some "content_ads.txt",
                 title := some "CONTENT ADS" }
    point_id := some "pK" }

/-- Environment of the C7 counterexample: every vector search is
empty, the keyword search returns only the non-matching `c7Kw`, and a
source file matching the intent exists. -/
def c7Env : RagEnv :=
  { search := fun _ _ => [], keyword := [c7Kw], files := some [c7WFile] }

/-- An outcome on which the loop retries (when attempts remain):
a retryable HTTP status or any `URLError`/`TimeoutError`. -/
def outcomeRetries : EmbedOutcome → Prop
  | .success _ => False
  | .httpError code _ _ => embedRetryable code = true
  | .netError _ _ _ => True

/-- Any failing outcome. -/
def outcomeFails : EmbedOutcome → Prop
  | .success _ => False
  | .httpError _ _ _ => True
  | .netError _ _ _ => True

/-- The `error_history` entry recorded for a failing attempt. -/
def embedHistoryEntry (attempts j : Nat) : EmbedOutcome → String
  | .success _ => ""
  | .httpError code body elapsed => httpHistoryEntry j attempts code body elapsed
  | .netError name msg elapsed => netHistoryEntry j attempts name msg elapsed

/-- `sub` occurs contiguously inside `s` (Python `sub in s`). -/
def strInfix (sub s : String) : Prop :=
  ∃ pre post, s.data = pre ++ sub.data ++ post

/-- Attempt oracle for the C9 witness: a timeout on the first attempt,
then a successful response with one vector. -/
def c9Oracle : Nat → EmbedOutcome := fun j =>
  if j = 1 then .netError "TimeoutError" "timed out" "0.00"
  else .success [[1]]

/-! ## Theorems -/

theorem splitWordsAux_all_ws {cs : List Char} (h : ∀ c ∈ cs, c.isWhitespace) (acc : List Char) :
    splitWordsAux cs acc = if acc = [] then [] else [acc.reverse] := by
  induction cs generalizing acc with
  | nil => rfl
  | cons c cs ih =>
      have hc : c.isWhitespace := h c (by simp)
      have hrest : ∀ x ∈ cs, x.isWhitespace := fun x hx => h x (by simp [hx])
      by_cases hacc : acc = []
      · simp [splitWordsAux, hc, hacc, ih hrest]
      · simp [splitWordsAux, hc, hacc, ih hrest]

theorem splitWords_all_ws {cs : List Char} (h : ∀ c ∈ cs, c.isWhitespace) :
    splitWords cs = [] := by
  simp [splitWords, splitWordsAux_all_ws h]

/-- Each word produced by `splitWordsAux` is nonempty and
whitespace-free, provided the in-progress accumulator is
whitespace-free. -/
theorem splitWordsAux_words {cs acc : List Char}
    (hacc : ∀ c ∈ acc, ¬ c.isWhitespace) :
    ∀ w ∈ splitWordsAux cs acc, w ≠ [] ∧ ∀ c ∈ w, ¬ c.isWhitespace := by
  induction cs generalizing acc with
  | nil =>
      intro w hw
      by_cases h : acc = []
      · simp [splitWordsAux, h] at hw
      · simp [splitWordsAux, h] at hw
        subst hw
        refine ⟨by simpa using h, ?_⟩
        intro c hc
        exact hacc c (by simpa using hc)
  | cons c cs ih =>
      intro w hw
      by_cases hc : c.isWhitespace
      · by_cases h : acc = []
        · simp [splitWordsAux, hc, h] at hw
          exact ih (by simp) w hw
        · simp [splitWordsAux, hc, h] at hw
          rcases hw with hw | hw
          · subst hw
            refine ⟨by simpa using h, ?_⟩
            intro x hx
            exact hacc x (by simpa using hx)
          · exact ih (by simp) w hw
      · simp only [splitWordsAux, hc, if_false] at hw
        refine ih ?_ w hw
        intro x hx
        rcases List.mem_cons.mp hx with hx | hx
        · subst hx; exact hc
        · exact hacc x hx

theorem splitWords_words {cs : List Char} :
    ∀ w ∈ splitWords cs, w ≠ [] ∧ ∀ c ∈ w, ¬ c.isWhitespace :=
  splitWordsAux_words (by simp)

/-- Splitting a whitespace-free word accumulates all of it into one token. -/
theorem splitWordsAux_no_ws {w : List Char} (hw : ∀ c ∈ w, ¬ c.isWhitespace) :
    ∀ acc : List Char, splitWordsAux w acc =
      if acc = [] ∧ w = [] then [] else [acc.reverse ++ w] := by
  induction w with
  | nil =>
      intro acc
      by_cases h : acc = [] <;> simp [splitWordsAux, h]
  | cons c cs ih =>
      intro acc
      have hc : ¬ c.isWhitespace := hw c (by simp)
      have hrest : ∀ x ∈ cs, ¬ x.isWhitespace := fun x hx => hw x (by simp [hx])
      have h2 := ih hrest (c :: acc)
      simp only [splitWordsAux, hc, if_false]
      rw [h2]
      by_cases hcs : cs = []
      · subst hcs; simp
      · simp [hcs]

/-- A whitespace separator cuts a `split` into two independent splits. -/
theorem splitWordsAux_append_ws {d : Char} (hd : d.isWhitespace) (cs1 cs2 : List Char) :
    ∀ acc, splitWordsAux (cs1 ++ d :: cs2) acc =
      splitWordsAux cs1 acc ++ splitWords cs2 := by
  induction cs1 with
  | nil =>
      intro acc
      by_cases h : acc = [] <;> simp [splitWordsAux, splitWords, hd, h]
  | cons c cs ih =>
      intro acc
      by_cases hc : c.isWhitespace
      · by_cases h : acc = [] <;> simp [splitWordsAux, hc, h, ih]
      · simp [splitWordsAux, hc, ih]

/-- Trailing whitespace does not change a split. -/
theorem splitWordsAux_append_all_ws {p : List Char} (hp : ∀ c ∈ p, c.isWhitespace)
    (cs : List Char) : ∀ acc, splitWordsAux (cs ++ p) acc = splitWordsAux cs acc := by
  induction cs with
  | nil =>
      intro acc
      simp only [List.nil_append]
      rw [splitWordsAux_all_ws hp]
      rfl
  | cons c cs ih =>
      intro acc
      by_cases hc : c.isWhitespace
      · by_cases h : acc = [] <;> simp [splitWordsAux, hc, h, ih]
      · simp [splitWordsAux, hc, ih]

/-- Leading whitespace does not change a split. -/
theorem splitWordsAux_ws_prepend {p : List Char} (hp : ∀ c ∈ p, c.isWhitespace)
    (cs : List Char) : splitWordsAux (p ++ cs) [] = splitWordsAux cs [] := by
  induction p with
  | nil => rfl
  | cons d p ih =>
      have hd : d.isWhitespace := hp d (by simp)
      have hrest : ∀ c ∈ p, c.isWhitespace := fun c hc => hp c (by simp [hc])
      simp [splitWordsAux, hd, ih hrest]

/-- `split` and `" ".join` round-trip on lists of nonempty
whitespace-free words. -/
theorem splitWords_joinWords {ws : List (List Char)}
    (h : ∀ w ∈ ws, w ≠ [] ∧ ∀ c ∈ w, ¬ c.isWhitespace) :
    splitWords (joinWords ws) = ws := by
  induction ws with
  | nil => rfl
  | cons w ws ih =>
      rcases h w (by simp) with ⟨hne, hfree⟩
      have hrest : ∀ v ∈ ws, v ≠ [] ∧ ∀ c ∈ v, ¬ c.isWhitespace :=
        fun v hv => h v (by simp [hv])
      cases ws with
      | nil =>
          show splitWords w = [w]
          unfold splitWords
          rw [splitWordsAux_no_ws hfree]
          simp [hne]
      | cons v vs =>
          show splitWords (w ++ ' ' :: joinWords (v :: vs)) = w :: v :: vs
          unfold splitWords
          rw [splitWordsAux_append_ws (by decide) w (joinWords (v :: vs))]
          rw [splitWordsAux_no_ws hfree]
          simp [hne]
          exact ih hrest

/-- `strip` does not change the words of a string. -/
theorem splitWords_stripChars (cs : List Char) :
    splitWords (stripChars cs) = splitWords cs := by
  unfold stripChars
  set cs1 := cs.dropWhile Char.isWhitespace with hcs1
  have hlead : ∀ c ∈ cs.takeWhile Char.isWhitespace, c.isWhitespace := by
    intro c hc
    exact List.mem_takeWhile_imp hc
  have h1 : splitWords cs = splitWords cs1 := by
    conv_lhs => rw [show cs = cs.takeWhile Char.isWhitespace ++ cs1 from
      (List.takeWhile_append_dropWhile Char.isWhitespace cs).symm]
    unfold splitWords
    exact splitWordsAux_ws_prepend hlead cs1
  have hsplit : cs1 = (cs1.reverse.dropWhile Char.isWhitespace).reverse
      ++ (cs1.reverse.takeWhile Char.isWhitespace).reverse := by
    calc cs1 = (cs1.reverse).reverse := (List.reverse_reverse cs1).symm
    _ = (cs1.reverse.takeWhile Char.isWhitespace
          ++ cs1.reverse.dropWhile Char.isWhitespace).reverse := by
        rw [List.takeWhile_append_dropWhile]
    _ = _ := List.reverse_append _ _
  have htrail : ∀ c ∈ (cs1.reverse.takeWhile Char.isWhitespace).reverse, c.isWhitespace := by
    intro c hc
    exact List.mem_takeWhile_imp (List.mem_reverse.mp hc)
  rw [h1]
  conv_rhs => rw [hsplit]
  unfold splitWords
  rw [splitWordsAux_append_all_ws htrail]

theorem insertDescBy_perm {α K : Type} [LinearOrder K] (key : α → K) (x : α) (l : List α) :
    List.Perm (insertDescBy key x l) (x :: l) := by
  induction l with
  | nil => exact List.Perm.refl _
  | cons y ys ih =>
      by_cases h : key x < key y
      · simp only [insertDescBy, h, if_true]
        exact List.Perm.trans (ih.cons y) (List.Perm.swap x y ys)
      · simp [insertDescBy, h]

theorem sortDescBy_perm {α K : Type} [LinearOrder K] (key : α → K) (l : List α) :
    List.Perm (sortDescBy key l) l := by
  induction l with
  | nil => exact List.Perm.refl _
  | cons x xs ih =>
      exact List.Perm.trans (insertDescBy_perm key x _) (ih.cons x)

theorem insertDescBy_pairwise {α K : Type} [LinearOrder K] (key : α → K) (x : α)
    {l : List α} (h : l.Pairwise (fun a b => key b ≤ key a)) :
    (insertDescBy key x l).Pairwise (fun a b => key b ≤ key a) := by
  induction l with
  | nil => simp [insertDescBy]
  | cons y ys ih =>
      rcases List.pairwise_cons.mp h with ⟨hy, hys⟩
      by_cases hxy : key x < key y
      · simp only [insertDescBy, hxy, if_true]
        refine List.pairwise_cons.mpr ⟨?_, ih hys⟩
        intro b hb
        have hb' : b ∈ x :: ys := (insertDescBy_perm key x ys).mem_iff.mp hb
        rcases List.mem_cons.mp hb' with hb' | hb'
        · subst hb'; exact le_of_lt hxy
        · exact hy b hb'
      · simp only [insertDescBy, hxy, if_false]
        refine List.pairwise_cons.mpr ⟨?_, h⟩
        intro b hb
        rcases List.mem_cons.mp hb with hb | hb
        · subst hb; exact le_of_not_lt hxy
        · exact le_trans (hy b hb) (le_of_not_lt hxy)

theorem sortDescBy_pairwise {α K : Type} [LinearOrder K] (key : α → K) (l : List α) :
    (sortDescBy key l).Pairwise (fun a b => key b ≤ key a) := by
  induction l with
  | nil => simp [sortDescBy]
  | cons x xs ih => exact insertDescBy_pairwise key x ih

/-- Stability, phrased through filters: the elements with any fixed
key value appear in the sorted list in their original order. -/
theorem insertDescBy_filter_eq {α K : Type} [LinearOrder K] [DecidableEq α]
    (key : α → K) (x : α) (l : List α) (q : K) :
    (insertDescBy key x l).filter (fun a => key a = q) =
      if key x = q then x :: l.filter (fun a => key a = q)
      else l.filter (fun a => key a = q) := by
  induction l with
  | nil =>
      by_cases h : key x = q <;> simp [insertDescBy, h]
  | cons y ys ih =>
      by_cases hxy : key x < key y
      · rw [show insertDescBy key x (y :: ys) = y :: insertDescBy key x ys from by
            simp [insertDescBy, hxy]]
        rw [List.filter_cons, ih]
        by_cases hx : key x = q
        · have hy : ¬ (key y = q) := fun hy => absurd (hx.trans hy.symm) (ne_of_lt hxy)
          simp [hx, hy]
        · by_cases hy : key y = q <;> simp [hx, hy]
      · rw [show insertDescBy key x (y :: ys) = x :: y :: ys from by
            simp [insertDescBy, hxy]]
        by_cases hx : key x = q <;> by_cases hy : key y = q <;>
          simp [List.filter_cons, hx, hy]

theorem sortDescBy_filter_eq {α K : Type} [LinearOrder K] [DecidableEq α]
    (key : α → K) (l : List α) (q : K) :
    (sortDescBy key l).filter (fun a => key a = q) = l.filter (fun a => key a = q) := by
  induction l with
  | nil => rfl
  | cons x xs ih =>
      show (insertDescBy key x (sortDescBy key xs)).filter (fun a => key a = q) = _
      rw [insertDescBy_filter_eq, ih]
      by_cases h : key x = q <;> simp [List.filter_cons, h]

/-- In a descending-sorted list a strictly larger key always comes
first: any position holding `a` precedes any position holding `b`
whenever `key a > key b`. -/
theorem pairwise_desc_position {α K : Type} [LinearOrder K] (key : α → K)
    {l : List α} (h : l.Pairwise (fun a b => key b ≤ key a)) {a b : α}
    (hab : key b < key a) (i j : Fin l.length)
    (hi : l.get i = a) (hj : l.get j = b) : (i : ℕ) < (j : ℕ) := by
  by_contra hle
  have hji : (j : ℕ) ≤ (i : ℕ) := le_of_not_lt hle
  rcases eq_or_lt_of_le hji with heq | hlt
  · have : a = b := by
      rw [← hi, ← hj]
      congr 1
      exact (Fin.ext heq).symm
    subst this
    exact absurd hab (lt_irrefl _)
  · have := (List.pairwise_iff_get.mp h) j i hlt
    rw [hi, hj] at this
    exact absurd hab (not_lt_of_le this)

/-- Filtering a prefix yields a prefix of the filtered list. -/
theorem filter_take_prefix {α : Type} (p : α → Bool) (l : List α) (k : ℕ) :
    ∃ t, (l.filter p) = (l.take k).filter p ++ t := by
  refine ⟨(l.drop k).filter p, ?_⟩
  rw [← List.filter_append, List.take_append_drop]

theorem chunkWindowsGo_eq_starts (words : List (List Char)) (W o : Nat) :
    ∀ fuel start, start < words.length →
      chunkWindowsGo words W o fuel start =
        (chunkStartsGo words.length W o fuel start).map
          (fun s => (words.drop s).take W) := by
  intro fuel
  induction fuel with
  | zero => intro start _; rfl
  | succ fuel ih =>
      intro start hstart
      by_cases hlt : start + W < words.length
      · have he : min (start + W) words.length = start + W := min_eq_left (le_of_lt hlt)
        have hne : ¬ (min (start + W) words.length = words.length) := by omega
        have harg : start + W - o < words.length := by omega
        simp only [chunkWindowsGo, chunkStartsGo, hlt, if_true, hne, if_false, he,
          List.map_cons]
        have hne2 : ¬ (start + W = words.length) := by omega
        have hWW : start + W - start = W := by omega
        simp only [hne2, if_false, hWW]
        rw [ih _ harg]
      · have he : min (start + W) words.length = words.length := by omega
        have heq : min (start + W) words.length = words.length := he
        simp only [chunkWindowsGo, chunkStartsGo, hlt, if_false, heq, if_true,
          List.map_cons, List.map_nil]
        have hlen : (words.drop start).length = words.length - start :=
          List.length_drop _ _
        have h1 : (words.drop start).take (words.length - start) = words.drop start := by
          rw [← hlen]; exact List.take_length _
        have h2 : (words.drop start).take W = words.drop start := by
          apply List.take_of_length_le
          omega
        rw [h1, h2]

theorem chunkStartsGo_mem_lt (n W o : Nat) :
    ∀ fuel start, start < n → ∀ s ∈ chunkStartsGo n W o fuel start, s < n := by
  intro fuel
  induction fuel with
  | zero => intro start _ s hs; simp [chunkStartsGo] at hs
  | succ fuel ih =>
      intro start hstart s hs
      by_cases hlt : start + W < n
      · simp only [chunkStartsGo, hlt, if_true, List.mem_cons] at hs
        rcases hs with hs | hs
        · omega
        · exact ih _ (by omega) s hs
      · simp only [chunkStartsGo, hlt, if_false, List.mem_singleton] at hs
        omega

theorem chunkStartsGo_head (n W o : Nat) (fuel start : Nat) (h : 0 < fuel) :
    (chunkStartsGo n W o fuel start).head? = some start := by
  cases fuel with
  | zero => omega
  | succ fuel =>
      by_cases hlt : start + W < n <;> simp [chunkStartsGo, hlt]

theorem chunkStartsGo_chain (n W o : Nat) :
    ∀ fuel start, List.Chain' (fun s t => t = s + W - o ∧ s + W < n)
      (chunkStartsGo n W o fuel start) := by
  intro fuel
  induction fuel with
  | zero => intro start; simp [chunkStartsGo]
  | succ fuel ih =>
      intro start
      by_cases hlt : start + W < n
      · simp only [chunkStartsGo, hlt, if_true]
        rw [List.chain'_cons']
        refine ⟨?_, ih _⟩
        intro t ht
        cases fuel with
        | zero => simp [chunkStartsGo] at ht
        | succ fuel =>
            rw [chunkStartsGo_head n W o _ _ (by omega)] at ht
            cases ht
            exact ⟨rfl, hlt⟩
      · simp [chunkStartsGo, hlt]

/-- Fuel irrelevance of the chunking loop: with `overlap < max_tokens`
any fuel of at least `n − start` steps computes the same windows, i.e.
the Python loop terminates within that many iterations. -/
theorem chunkStartsGo_fuel_irrel (n W o : Nat) (hWo : o < W) :
    ∀ fuel fuel2 start, start < n → n - start ≤ fuel → n - start ≤ fuel2 →
      chunkStartsGo n W o fuel start = chunkStartsGo n W o fuel2 start := by
  intro fuel
  induction fuel with
  | zero => intro fuel2 start h1 h2; omega
  | succ fuel ih =>
      intro fuel2 start h1 h2 h3
      cases fuel2 with
      | zero => omega
      | succ fuel2 =>
          by_cases hlt : start + W < n
          · simp only [chunkStartsGo, hlt, if_true]
            congr 1
            exact ih _ _ (by omega) (by omega) (by omega)
          · simp [chunkStartsGo, hlt]

/-! ### Association-list lemmas for the fusion dicts -/

theorem alookupQ_dictAddQ (k k' : String) (x : ℚ) (m : List (String × ℚ)) :
    alookupQ k' (dictAddQ k x m) = alookupQ k' m + (if k' = k then x else 0) := by
  induction m with
  | nil =>
      by_cases h : k' = k
      · subst h; simp [dictAddQ, alookupQ, alookup]
      · have h2 : ¬ (k = k') := fun hh => h hh.symm
        simp [dictAddQ, alookupQ, alookup, h, h2]
  | cons kv rest ih =>
      obtain ⟨k0, v⟩ := kv
      by_cases h0 : k0 = k
      · subst h0
        by_cases h1 : k0 = k'
        · subst h1
          simp [dictAddQ, alookupQ, alookup]
        · have h2 : ¬ (k' = k0) := fun hh => h1 hh.symm
          simp [dictAddQ, alookupQ, alookup, h1, h2]
      · by_cases h1 : k0 = k'
        · subst h1
          have h2 : ¬ (k0 = k) := h0
          simp [dictAddQ, alookupQ, alookup, h2]
        · have h2 : ¬ (k' = k0) := fun hh => h1 hh.symm
          have ih2 := ih
          simp only [alookupQ] at ih2
          simp [dictAddQ, alookupQ, alookup, h0, h1, h2, ih2]

theorem mem_keys_dictAddQ (k k' : String) (x : ℚ) (m : List (String × ℚ)) :
    k' ∈ (dictAddQ k x m).map Prod.fst ↔ k' ∈ m.map Prod.fst ∨ k' = k := by
  induction m with
  | nil => simp [dictAddQ, eq_comm]
  | cons kv rest ih =>
      obtain ⟨k0, v⟩ := kv
      by_cases h0 : k0 = k
      · subst h0; simp [dictAddQ]; tauto
      · simp [dictAddQ, h0, ih]; tauto

theorem keys_nodup_dictAddQ (k : String) (x : ℚ) (m : List (String × ℚ))
    (h : (m.map Prod.fst).Nodup) : ((dictAddQ k x m).map Prod.fst).Nodup := by
  induction m with
  | nil => simp [dictAddQ]
  | cons kv rest ih =>
      obtain ⟨k0, v⟩ := kv
      simp only [List.map_cons, List.nodup_cons] at h
      by_cases h0 : k0 = k
      · subst h0; simpa [dictAddQ] using h
      · simp only [dictAddQ, h0, if_false, List.map_cons, List.nodup_cons]
        refine ⟨?_, ih h.2⟩
        rw [mem_keys_dictAddQ]
        push_neg
        exact ⟨h.1, h0⟩

theorem alookup_eq_of_mem_nodup {β : Type} (m : List (String × β)) (k : String) (v : β)
    (hnd : (m.map Prod.fst).Nodup) (hmem : (k, v) ∈ m) : alookup k m = some v := by
  induction m with
  | nil => simp at hmem
  | cons kv rest ih =>
      obtain ⟨k0, v0⟩ := kv
      simp only [List.map_cons, List.nodup_cons] at hnd
      rcases List.mem_cons.mp hmem with heq | hmem2
      · cases heq
        simp [alookup]
      · have hk : ¬ (k0 = k) := by
          intro h
          subst h
          exact hnd.1 (List.mem_map.mpr ⟨(k0, v), hmem2, rfl⟩)
        simp only [alookup]
        rw [if_neg hk]
        exact ih hnd.2 hmem2

theorem alookupQ_foldl_dictAddQ {α : Type} (keyf : α → String) (wf : α → ℚ)
    (L : List α) (id : String) : ∀ m0 : List (String × ℚ),
    alookupQ id (L.foldl (fun m a => dictAddQ (keyf a) (wf a) m) m0)
      = alookupQ id m0 + ((L.filter (fun a => keyf a = id)).map wf).sum := by
  induction L with
  | nil => intro m0; simp
  | cons a L ih =>
      intro m0
      simp only [List.foldl_cons, List.filter_cons]
      rw [ih, alookupQ_dictAddQ]
      by_cases h : keyf a = id
      · have h2 : id = keyf a := h.symm
        rw [if_pos h2]
        simp [h, add_assoc]
      · have h2 : ¬ (id = keyf a) := fun hh => h hh.symm
        rw [if_neg h2]
        simp [h]

theorem mem_keys_foldl_dictAddQ {α : Type} (keyf : α → String) (wf : α → ℚ)
    (L : List α) (id : String) : ∀ m0 : List (String × ℚ),
    (id ∈ (L.foldl (fun m a => dictAddQ (keyf a) (wf a) m) m0).map Prod.fst
      ↔ id ∈ m0.map Prod.fst ∨ id ∈ L.map keyf) := by
  induction L with
  | nil => intro m0; simp
  | cons a L ih =>
      intro m0
      simp only [List.foldl_cons, List.map_cons, List.mem_cons]
      rw [ih, mem_keys_dictAddQ]
      tauto

theorem keys_nodup_foldl_dictAddQ {α : Type} (keyf : α → String) (wf : α → ℚ)
    (L : List α) : ∀ m0 : List (String × ℚ), (m0.map Prod.fst).Nodup →
    ((L.foldl (fun m a => dictAddQ (keyf a) (wf a) m) m0).map Prod.fst).Nodup := by
  induction L with
  | nil => intro m0 h; exact h
  | cons a L ih =>
      intro m0 h
      exact ih _ (keys_nodup_dictAddQ _ _ _ h)

theorem alookup_dictSet {β : Type} (k k' : String) (v : β) (m : List (String × β)) :
    alookup k' (dictSet k v m) = if k' = k then some v else alookup k' m := by
  induction m with
  | nil =>
      by_cases h : k' = k
      · subst h; simp [dictSet, alookup]
      · have h2 : ¬ (k = k') := fun hh => h hh.symm
        simp [dictSet, alookup, h, h2]
  | cons kv rest ih =>
      obtain ⟨k0, v0⟩ := kv
      by_cases h0 : k0 = k
      · subst h0
        by_cases h1 : k0 = k'
        · subst h1; simp [dictSet, alookup]
        · have h2 : ¬ (k' = k0) := fun hh => h1 hh.symm
          simp [dictSet, alookup, h1, h2]
      · by_cases h1 : k0 = k'
        · subst h1
          have h2 : ¬ (k0 = k) := h0
          have h3 : ¬ (k = k0) := fun hh => h0 hh.symm
          simp [dictSet, alookup, h2, h3]
        · have h2 : ¬ (k' = k0) := fun hh => h1 hh.symm
          simp [dictSet, alookup, h0, h1, h2, ih]

theorem alookup_dictSetdefault {β : Type} (k k' : String) (v : β) (m : List (String × β)) :
    alookup k' (dictSetdefault k v m)
      = (alookup k' m).or (if k' = k then some v else none) := by
  induction m with
  | nil =>
      by_cases h : k' = k
      · subst h; simp [dictSetdefault, alookup]
      · have h2 : ¬ (k = k') := fun hh => h hh.symm
        simp [dictSetdefault, alookup, h, h2]
  | cons kv rest ih =>
      obtain ⟨k0, v0⟩ := kv
      by_cases h0 : k0 = k
      · subst h0
        by_cases h1 : k0 = k'
        · subst h1; simp [dictSetdefault, alookup]
        · have h2 : ¬ (k' = k0) := fun hh => h1 hh.symm
          simp [dictSetdefault, alookup, h1, h2]
      · by_cases h1 : k0 = k'
        · subst h1
          have h3 : ¬ (k0 = k) := h0
          simp [dictSetdefault, alookup, h3]
        · have h2 : ¬ (k' = k0) := fun hh => h1 hh.symm
          simp [dictSetdefault, alookup, h0, h1, h2, ih]

theorem find?_append_or {α : Type} (p : α → Bool) (l1 l2 : List α) :
    (l1 ++ l2).find? p = (l1.find? p).or (l2.find? p) := by
  induction l1 with
  | nil => simp
  | cons x xs ih =>
      by_cases h : p x
      · rw [List.cons_append, List.find?_cons_of_pos _ h, List.find?_cons_of_pos _ h]
        simp
      · have h2 : ¬ p x = true := h
        rw [List.cons_append, List.find?_cons_of_neg _ h2, List.find?_cons_of_neg _ h2]
        exact ih

theorem mem_of_headQ {α : Type} {l : List α} {a : α} (h : l.head? = some a) : a ∈ l := by
  cases l with
  | nil => simp at h
  | cons x xs =>
      simp only [List.head?_cons, Option.some.injEq] at h
      simp [h]

theorem alookup_foldl_dictSet (L : List RetrievedChunk) (id : String) :
    ∀ m0 : List (String × RetrievedChunk),
    alookup id (L.foldl (fun m c => dictSet (rrfKey c) c m) m0)
      = (L.reverse.find? (fun c => rrfKey c = id)).or (alookup id m0) := by
  induction L with
  | nil => intro m0; simp
  | cons c L ih =>
      intro m0
      simp only [List.foldl_cons, List.reverse_cons]
      rw [ih, alookup_dictSet, find?_append_or]
      by_cases h : rrfKey c = id
      · have h2 : id = rrfKey c := h.symm
        rw [if_pos h2]
        rw [List.find?_cons_of_pos _ (by simpa using h)]
        rw [Option.or_assoc]
        simp
      · have h2 : ¬ (id = rrfKey c) := fun hh => h hh.symm
        rw [if_neg h2]
        rw [List.find?_cons_of_neg _ (by simpa using h)]
        rw [List.find?_nil]
        simp

theorem alookup_foldl_dictSetdefault (L : List RetrievedChunk) (id : String) :
    ∀ m0 : List (String × RetrievedChunk),
    alookup id (L.foldl (fun m c => dictSetdefault (rrfKey c) c m) m0)
      = (alookup id m0).or (L.find? (fun c => rrfKey c = id)) := by
  induction L with
  | nil => intro m0; simp
  | cons c L ih =>
      intro m0
      simp only [List.foldl_cons]
      rw [ih, alookup_dictSetdefault]
      by_cases h : rrfKey c = id
      · have h2 : id = rrfKey c := h.symm
        rw [if_pos h2]
        rw [List.find?_cons_of_pos _ (by simpa using h)]
        rw [Option.or_assoc]
        simp
      · have h2 : ¬ (id = rrfKey c) := fun hh => h hh.symm
        rw [if_neg h2]
        rw [List.find?_cons_of_neg _ (by simpa using h)]
        simp

/-- `Pairwise` transported through `filterMap`. -/
theorem pairwise_filterMap_of {α β : Type} {f : α → Option β} {R : α → α → Prop}
    {S : β → β → Prop}
    (h : ∀ a b x y, R a b → f a = some x → f b = some y → S x y) :
    ∀ {l : List α}, l.Pairwise R → (l.filterMap f).Pairwise S := by
  intro l hl
  induction hl with
  | nil => simp
  | @cons a l ha _ ih =>
      cases hf : f a with
      | none => simpa [List.filterMap_cons, hf] using ih
      | some x =>
          simp only [List.filterMap_cons, hf]
          refine List.pairwise_cons.mpr ⟨?_, ih⟩
          intro y hy
          rcases List.mem_filterMap.mp hy with ⟨b, hb, hfb⟩
          exact h a b x y (ha b hb) hf hfb

theorem foldl_add_map {α : Type} (g : α → ℚ) (L : List α) :
    ∀ a : ℚ, L.foldl (fun s t => s + g t) a = a + (L.map g).sum := by
  induction L with
  | nil => intro a; simp
  | cons x xs ih =>
      intro a
      simp only [List.foldl_cons, List.map_cons, List.sum_cons]
      rw [ih]
      ring

/-- The BM25 scoring loop is the sum of the per-term contributions. -/
theorem bm25DocScore_eq_sum (numRows : Nat) (avgdl : ℚ) (df : String → Nat)
    (queryTerms tokens : List String) :
    bm25DocScore numRows avgdl df queryTerms tokens
      = (queryTerms.map (fun t => bm25TermContribution numRows avgdl (df t)
          (termFreq tokens t) (max 1 tokens.length))).sum := by
  unfold bm25DocScore
  have hstep : (fun (score : ℚ) (term : String) =>
      let freq := termFreq tokens term
      if freq = 0 then score
      else score + bm25Idf numRows (df term) * ((freq : ℚ) * (3/2 + 1)) /
        max (1/1000000) (bm25Denom freq (max 1 tokens.length) avgdl))
      = (fun (score : ℚ) (term : String) => score + bm25TermContribution numRows avgdl
          (df term) (termFreq tokens term) (max 1 tokens.length)) := by
    funext score term
    simp only [bm25TermContribution]
    by_cases h : termFreq tokens term = 0 <;> simp [h]
  rw [hstep, foldl_add_map]
  simp

/-! ### Round-trip of `split("\n\n")` and `"\n\n".join` -/

theorem splitNN_cons_eq (c : Char) (rest : List Char)
    (h : ∀ rest2, c = '\n' → rest = '\n' :: rest2 → False) :
    splitNN (c :: rest) = consHeadNN c (splitNN rest) := by
  rw [splitNN.eq_def]
  split
  · rename_i heq
    exact absurd heq (by simp)
  · rename_i rest2 heq
    injection heq with h1 h2
    exact absurd (h rest2 h1 h2) (fun f => f)
  · rename_i c2 rest2 h2 heq
    injection heq with e1 e2
    subst e1; subst e2
    rfl

theorem splitNN_ne_nil (cs : List Char) : splitNN cs ≠ [] := by
  induction cs using splitNN.induct with
  | case1 => simp [splitNN]
  | case2 rest ih => simp [splitNN]
  | case3 c rest h ih =>
      rw [splitNN_cons_eq c rest h]
      cases hs : splitNN rest with
      | nil => exact absurd hs ih
      | cons w ws => simp [consHeadNN]

theorem joinNN_consHeadNN (c : Char) {s : List (List Char)} (h : s ≠ []) :
    joinNN (consHeadNN c s) = c :: joinNN s := by
  cases s with
  | nil => exact absurd rfl h
  | cons w ws =>
      cases ws with
      | nil => rfl
      | cons v vs => rfl

theorem joinNN_splitNN (cs : List Char) : joinNN (splitNN cs) = cs := by
  induction cs using splitNN.induct with
  | case1 => rfl
  | case2 rest ih =>
      show joinNN ([] :: splitNN rest) = '\n' :: '\n' :: rest
      cases hs : splitNN rest with
      | nil => exact absurd hs (splitNN_ne_nil rest)
      | cons w ws =>
          show joinNN ([] :: w :: ws) = '\n' :: '\n' :: rest
          rw [show joinNN ([] :: w :: ws) = [] ++ '\n' :: '\n' :: joinNN (w :: ws) from rfl]
          rw [← hs, ih]
          rfl
  | case3 c rest h ih =>
      have hne : splitNN rest ≠ [] := splitNN_ne_nil rest
      rw [splitNN_cons_eq c rest h, joinNN_consHeadNN c hne, ih]

/-- Claim C1: the claim states that when the embedding and search calls
succeed, `retrieve_rag_context` returns the numbered context string and
raises no exception, *including* when at least one chunk is selected.
The code contradicts this: `RetrievedChunk` is `@dataclass(frozen=True)`
yet line 729 executes `chunk.content = _focus_chunk_content_for_query(...)`
for every selected chunk, which raises `dataclasses.FrozenInstanceError`.
Here a query with one successfully retrieved and selected chunk makes
the function raise instead of returning a context. -/
theorem retrieve_rag_context_crashes_when_chunk_selected :
    retrieveRagContextE {} c1Env "audience ?" (some "audience")
      = Except.error "dataclasses.FrozenInstanceError: cannot assign to field content"
    ∧ (retrieveRagPipeline {} c1Env "audience ?" (some "audience")).selected = [c1Chunk] := by
  constructor
  · rfl
  · rfl

/-- Claim C10: `retrieve_rag_selection` wraps the context string
produced by `retrieve_rag_context` unchanged; an empty context yields
no selected chunks, otherwise one `{"content": segment}` entry per
`"\n\n"`-separated segment, in order, and joining the entries with
`"\n\n"` reconstructs the context exactly. -/
theorem retrieve_rag_selection_spec (cfg : RagConfig) (env : RagEnv) (query : String)
    (intent : Option String) (c : String) :
    (retrieveRagContextE cfg env query intent = Except.ok c →
      retrieveRagSelectionE cfg env query intent = Except.ok (ragSelectionOfContext c)) ∧
    (ragSelectionOfContext c).context = c ∧
    (c = "" → (ragSelectionOfContext c).selected_chunks = []) ∧
    (c ≠ "" →
      (ragSelectionOfContext c).selected_chunks
        = (splitNN c.data).map (fun w => { content := String.mk w }) ∧
      String.mk (joinNN (((ragSelectionOfContext c).selected_chunks).map
        (fun sc => sc.content.data))) = c) := by
  refine ⟨?_, rfl, ?_, ?_⟩
  · intro h
    simp only [retrieveRagSelectionE, h]
    rfl
  · intro h
    simp [ragSelectionOfContext, h]
  · intro h
    constructor
    · simp [ragSelectionOfContext, h]
    · simp only [ragSelectionOfContext, h, if_false, List.map_map]
      rw [show ((fun sc => sc.content.data) ∘ fun w => ({ content := String.mk w } : SelChunk))
          = id from rfl]
      rw [List.map_id, joinNN_splitNN]

/-- Witness for C10 at a two-segment context. -/
theorem retrieve_rag_selection_spec_witness :
    retrieveRagSelectionE {} emptyRagEnv "q" none = Except.ok (ragSelectionOfContext "") ∧
    String.mk (joinNN (((ragSelectionOfContext "[1] a\n\n[2] b").selected_chunks).map
      (fun sc => sc.content.data))) = "[1] a\n\n[2] b" :=
  ⟨(retrieve_rag_selection_spec {} emptyRagEnv "q" none "").1 (by rfl),
   ((retrieve_rag_selection_spec {} emptyRagEnv "q" none "[1] a\n\n[2] b").2.2.2
     (by decide)).2⟩

theorem chain'_imp_of_mem {α : Type} {R S : α → α → Prop} :
    ∀ {l : List α}, List.Chain' R l → (∀ a ∈ l, ∀ b ∈ l, R a b → S a b) →
      List.Chain' S l := by
  intro l
  induction l with
  | nil => intro _ _; simp
  | cons x xs ih =>
      cases xs with
      | nil => intro _ _; simp
      | cons y ys =>
          intro hc hm
          rw [List.chain'_cons] at hc ⊢
          refine ⟨hm x (by simp) y (by simp) hc.1, ih hc.2 ?_⟩
          intro a ha b hb hr
          exact hm a (by simp [ha]) b (by simp [hb]) hr

theorem chunkWindows_eq (words : List (List Char)) (W o : Nat) (h : words ≠ []) :
    chunkWindows words W o =
      (chunkStartsGo words.length W o (words.length + 1) 0).map
        (fun s => (words.drop s).take W) := by
  unfold chunkWindows
  rw [if_neg h]
  exact chunkWindowsGo_eq_starts words W o _ 0 (List.length_pos.mpr h)

theorem chunkWindows_mem_spec (words : List (List Char)) (W o : Nat) (hW : 0 < W) :
    ∀ w ∈ chunkWindows words W o, 0 < w.length ∧ w.length ≤ W ∧ ∀ x ∈ w, x ∈ words := by
  intro w hw
  by_cases h : words = []
  · subst h; simp [chunkWindows] at hw
  · rw [chunkWindows_eq words W o h] at hw
    rcases List.mem_map.mp hw with ⟨s, hs, rfl⟩
    have hsn : s < words.length :=
      chunkStartsGo_mem_lt _ _ _ _ 0 (List.length_pos.mpr h) s hs
    refine ⟨?_, ?_, ?_⟩
    · rw [List.length_take, List.length_drop]; omega
    · rw [List.length_take]; omega
    · intro x hx
      exact ((List.take_sublist _ _).trans (List.drop_sublist _ _)).subset hx

theorem chunkWindows_chain (words : List (List Char)) (W o : Nat) (hWo : o < W) :
    List.Chain' (fun w w2 => w.length = W ∧ o < w2.length ∧ w2.take o = w.drop (W - o))
      (chunkWindows words W o) := by
  by_cases h : words = []
  · subst h; simp [chunkWindows]
  · rw [chunkWindows_eq words W o h, List.chain'_map]
    refine (chunkStartsGo_chain words.length W o _ 0).imp ?_
    intro s t hst
    obtain ⟨ht, hlt⟩ := hst
    subst ht
    refine ⟨?_, ?_, ?_⟩
    · rw [List.length_take, List.length_drop]; omega
    · rw [List.length_take, List.length_drop]; omega
    · rw [List.take_take, min_eq_left (le_of_lt hWo)]
      rw [List.drop_take]
      rw [List.drop_drop]
      have h2 : W - (W - o) = o := by omega
      have h3 : s + (W - o) = s + W - o := by omega
      rw [h2, h3]

/-- Claim C6: for `overlap < window_size`, every chunk of `chunk_text`
holds between 1 and `window_size` whitespace-delimited words;
consecutive chunks overlap by exactly `overlap` words (every non-final
chunk is full, and the following chunk starts with precisely its last
`overlap` words while extending past them); whitespace-only input
yields no chunks; and the windowing loop terminates within
`words.length` iterations (any fuel of at least that many steps
computes the same windows). -/
theorem chunk_text_spec (text : String) (W o : Nat) (hWo : o < W) :
    (∀ c ∈ chunk_text text W o, 0 < wordCount c ∧ wordCount c ≤ W) ∧
    List.Chain' (fun c c2 => wordCount c = W ∧ o < wordCount c2 ∧
      (splitWords c2.data).take o = (splitWords c.data).drop (W - o))
      (chunk_text text W o) ∧
    ((∀ ch ∈ text.data, ch.isWhitespace) → chunk_text text W o = []) ∧
    (∀ fuel, (splitWords text.data).length ≤ fuel →
      ((splitWords text.data).filter (fun w => !(stripChars w).isEmpty)) ≠ [] →
      chunkWindowsGo ((splitWords text.data).filter (fun w => !(stripChars w).isEmpty))
          W o fuel 0
        = chunkWindows ((splitWords text.data).filter (fun w => !(stripChars w).isEmpty))
            W o) := by
  set words := (splitWords text.data).filter (fun w => !(stripChars w).isEmpty) with hwords
  have hWpos : 0 < W := by omega
  have hwordsOk : ∀ w ∈ words, w ≠ [] ∧ ∀ c ∈ w, ¬ c.isWhitespace := by
    intro w hw
    exact splitWords_words w (List.mem_of_mem_filter hw)
  have hjoin : ∀ win : List (List Char), (∀ x ∈ win, x ∈ words) →
      splitWords (String.mk (joinWords win)).data = win := by
    intro win hmem
    show splitWords (joinWords win) = win
    exact splitWords_joinWords (fun w hw => hwordsOk w (hmem w hw))
  refine ⟨?_, ?_, ?_, ?_⟩
  · intro c hc
    rcases List.mem_map.mp hc with ⟨win, hwin, rfl⟩
    obtain ⟨hpos, hle, hmem⟩ := chunkWindows_mem_spec words W o hWpos win hwin
    have := hjoin win hmem
    unfold wordCount
    rw [this]
    exact ⟨hpos, hle⟩
  · show List.Chain' _ ((chunkWindows words W o).map (fun w => String.mk (joinWords w)))
    rw [List.chain'_map]
    have hchain := chunkWindows_chain words W o hWo
    refine chain'_imp_of_mem hchain ?_
    intro a ha b hb hr
    obtain ⟨h1, h2, h3⟩ := hr
    obtain ⟨_, _, hmema⟩ := chunkWindows_mem_spec words W o hWpos a ha
    obtain ⟨_, _, hmemb⟩ := chunkWindows_mem_spec words W o hWpos b hb
    have hja := hjoin a hmema
    have hjb := hjoin b hmemb
    unfold wordCount
    rw [hja, hjb]
    exact ⟨h1, h2, h3⟩
  · intro h
    have hsw : splitWords text.data = [] := splitWords_all_ws h
    have : words = [] := by rw [hwords, hsw]; rfl
    show ((chunkWindows words W o).map (fun w => String.mk (joinWords w))) = []
    rw [this]
    rfl
  · intro fuel hfuel hne
    have hn : 0 < words.length := List.length_pos.mpr hne
    have hlen : words.length ≤ (splitWords text.data).length := by
      rw [hwords]
      exact List.length_filter_le _ _
    rw [chunkWindowsGo_eq_starts words W o fuel 0 hn,
        chunkWindows_eq words W o hne]
    congr 1
    exact chunkStartsGo_fuel_irrel words.length W o hWo fuel (words.length + 1) 0 hn
      (by omega) (by omega)

/-- Witness for C6 at `"aa bb cc dd ee"`, window 3, overlap 1. -/
theorem chunk_text_spec_witness :
    List.Chain' (fun c c2 => wordCount c = 3 ∧ 1 < wordCount c2 ∧
      (splitWords c2.data).take 1 = (splitWords c.data).drop 2)
      (chunk_text "aa bb cc dd ee" 3 1) ∧
    chunk_text "aa bb cc dd ee" 3 1 = ["aa bb cc", "cc dd ee"] :=
  ⟨(chunk_text_spec "aa bb cc dd ee" 3 1 (by decide)).2.1, by decide⟩

theorem splitWords_joinWords_head (x : List Char) (rest : List (List Char)) :
    ∃ t, splitWords (joinWords (x :: rest)) = splitWords x ++ t := by
  cases rest with
  | nil => exact ⟨[], by simp [joinWords]⟩
  | cons y ys =>
      refine ⟨splitWords (joinWords (y :: ys)), ?_⟩
      show splitWords (x ++ ' ' :: joinWords (y :: ys)) = _
      unfold splitWords
      exact splitWordsAux_append_ws (by decide) x (joinWords (y :: ys)) []

/-- Claim C8 (counterexample): `rewrite_query` is *not* idempotent.  On
`"coute"` it appends the expansion tokens `prix tarif`; reapplying it
appends them a second time, because the `dict.fromkeys` de-duplication
treats the whole already-expanded query as a single list element, not
token by token. -/
theorem rewrite_query_not_idempotent :
    rewrite_query "coute" = "coute prix tarif" ∧
    rewrite_query (rewrite_query "coute") = "coute prix tarif prix tarif" ∧
    rewrite_query (rewrite_query "coute") ≠ rewrite_query "coute" := by
  refine ⟨by rfl, by rfl, by decide⟩

/-- Claim C8 (amended): `rewrite_query` is a pure deterministic
function and never removes tokens from the original query — every
whitespace-delimited token of `q` appears among the tokens of
`rewrite_query q` (the stripped original query is the first element of
the joined, de-duplicated list).  The idempotence part of the claim is
false (see the counterexample). -/
theorem rewrite_query_preserves_tokens (q : String) :
    ∀ w ∈ splitWords q.data, w ∈ splitWords (rewrite_query q).data := by
  intro w hw
  unfold rewrite_query
  by_cases hz : stripStr (String.mk (joinWords
      ((pyDedup (stripStr q :: rewriteExpansionTokens (lowerStr q))).map
        String.data))) = ""
  · rw [if_pos hz]
    exact hw
  · rw [if_neg hz]
    show w ∈ splitWords (stripChars (joinWords _))
    rw [splitWords_stripChars]
    have hded : pyDedup (stripStr q :: rewriteExpansionTokens (lowerStr q))
        = stripStr q :: pyDedupAux (rewriteExpansionTokens (lowerStr q))
            [stripStr q] := by
      simp [pyDedup, pyDedupAux]
    rw [hded, List.map_cons]
    obtain ⟨t, ht⟩ := splitWords_joinWords_head (stripStr q).data
      ((pyDedupAux (rewriteExpansionTokens (lowerStr q)) [stripStr q]).map String.data)
    rw [ht]
    apply List.mem_append_left
    show w ∈ splitWords (stripChars q.data)
    rw [splitWords_stripChars]
    exact hw

/-- Witness for the amended C8 on the query `" coute "`. -/
theorem rewrite_query_preserves_tokens_witness :
    ['c', 'o', 'u', 't', 'e'] ∈ splitWords (rewrite_query " coute ").data :=
  rewrite_query_preserves_tokens " coute " ['c', 'o', 'u', 't', 'e'] (by decide)

theorem pairwise_map_of_mem {α β : Type} {R : α → α → Prop} {S : β → β → Prop}
    {f : α → β} :
    ∀ {l : List α}, l.Pairwise R → (∀ a ∈ l, ∀ b ∈ l, R a b → S (f a) (f b)) →
      (l.map f).Pairwise S := by
  intro l hl
  induction hl with
  | nil => intro _; simp
  | @cons a l ha hl ih =>
      intro hm
      simp only [List.map_cons]
      refine List.pairwise_cons.mpr ⟨?_, ih ?_⟩
      · intro y hy
        rcases List.mem_map.mp hy with ⟨b, hb, rfl⟩
        exact hm a (by simp) b (by simp [hb]) (ha b hb)
      · intro a2 ha2 b hb hr
        exact hm a2 (by simp [ha2]) b (by simp [hb]) hr

theorem rerank_pairwise_key (wcfg : ℚ) (query : String) (chunks : List RetrievedChunk) :
    (rerank_chunks_lexical wcfg query chunks).Pairwise
      (fun a b => rerankKey (max 0 (min 1 wcfg)) query b
        ≤ rerankKey (max 0 (min 1 wcfg)) query a) := by
  unfold rerank_chunks_lexical
  apply pairwise_map_of_mem (sortDescBy_pairwise _ _)
  intro a ha b hb hr
  have hmem : ∀ x, x ∈ sortDescBy
      (fun item => toLex (item.1, toLex (item.2.1, item.2.2.score)))
      (chunks.map (rerankTriple (max 0 (min 1 wcfg)) query)) →
      x = rerankTriple (max 0 (min 1 wcfg)) query x.2.2 := by
    intro x hx
    have := (sortDescBy_perm (fun item => toLex (item.1, toLex (item.2.1, item.2.2.score)))
      (chunks.map (rerankTriple (max 0 (min 1 wcfg)) query))).mem_iff.mp hx
    rcases List.mem_map.mp this with ⟨c, _, rfl⟩
    rfl
  have hae := hmem a ha
  have hbe := hmem b hb
  have hka : toLex (a.1, toLex (a.2.1, a.2.2.score))
      = rerankKey (max 0 (min 1 wcfg)) query a.2.2 := by
    rw [hae]; rfl
  have hkb : toLex (b.1, toLex (b.2.1, b.2.2.score))
      = rerankKey (max 0 (min 1 wcfg)) query b.2.2 := by
    rw [hbe]; rfl
  rw [hka, hkb] at hr
  exact hr

/-- Claim C4: the lexical reranker orders candidates by the blended
score `(1 − w)·originalScore + w·overlapFraction` with the configured
weight clamped into `[0, 1]` (descending, ties broken by overlap then
original score, stably — the output is a permutation of the input and
deterministic because the function is pure); and with lexical weight
at least 1 (clamped to 1) a candidate with positive lexical overlap
ranks strictly above a candidate with zero overlap regardless of the
two retrieval scores. -/
theorem rerank_chunks_lexical_spec (wcfg : ℚ) (query : String)
    (chunks : List RetrievedChunk) :
    List.Perm (rerank_chunks_lexical wcfg query chunks) chunks ∧
    (rerank_chunks_lexical wcfg query chunks).Pairwise
      (fun a b => claimBlendedScore (max 0 (min 1 wcfg)) query b
        ≤ claimBlendedScore (max 0 (min 1 wcfg)) query a) ∧
    (∀ A B, 1 ≤ wcfg → A ∈ chunks → B ∈ chunks →
      0 < lexical_overlap_score query A.content →
      lexical_overlap_score query B.content = 0 →
      (rerank_chunks_lexical wcfg query chunks).indexOf A
        < (rerank_chunks_lexical wcfg query chunks).indexOf B) := by
  have hperm : List.Perm (rerank_chunks_lexical wcfg query chunks) chunks := by
    unfold rerank_chunks_lexical
    have h1 := (sortDescBy_perm
      (fun item => toLex (item.1, toLex (item.2.1, item.2.2.score)))
      (chunks.map (rerankTriple (max 0 (min 1 wcfg)) query))).map
      (fun item => item.2.2)
    refine h1.trans ?_
    rw [List.map_map]
    rw [show ((fun item => item.2.2) ∘ rerankTriple (max 0 (min 1 wcfg)) query)
      = id from rfl]
    rw [List.map_id]
  refine ⟨hperm, ?_, ?_⟩
  · refine (rerank_pairwise_key wcfg query chunks).imp ?_
    intro a b hr
    have := (Prod.Lex.le_iff _ _).mp hr
    rcases this with hlt | ⟨heq, _⟩
    · exact le_of_lt hlt
    · exact le_of_eq heq
  · intro A B hw hA hB hovA hovB
    have hw1 : max 0 (min 1 wcfg) = 1 := by
      rw [min_eq_left hw]
      simp
    have hkey : rerankKey (max 0 (min 1 wcfg)) query B
        < rerankKey (max 0 (min 1 wcfg)) query A := by
      rw [hw1]
      unfold rerankKey
      apply (Prod.Lex.lt_iff _ _).mpr
      left
      rw [hovB]
      simp only [sub_self, zero_mul, one_mul, zero_add, add_zero]
      exact hovA
    have hAmem : A ∈ rerank_chunks_lexical wcfg query chunks := hperm.mem_iff.mpr hA
    have hBmem : B ∈ rerank_chunks_lexical wcfg query chunks := hperm.mem_iff.mpr hB
    have hiA : (rerank_chunks_lexical wcfg query chunks).indexOf A
        < (rerank_chunks_lexical wcfg query chunks).length :=
      List.indexOf_lt_length.mpr hAmem
    have hiB : (rerank_chunks_lexical wcfg query chunks).indexOf B
        < (rerank_chunks_lexical wcfg query chunks).length :=
      List.indexOf_lt_length.mpr hBmem
    exact pairwise_desc_position (rerankKey (max 0 (min 1 wcfg)) query)
      (rerank_pairwise_key wcfg query chunks) hkey ⟨_, hiA⟩ ⟨_, hiB⟩
      (List.indexOf_get hiA) (List.indexOf_get hiB)

/-- Witness for C4: with lexical weight 1, the zero-score overlapping
candidate outranks the high-score non-overlapping one. -/
theorem rerank_chunks_lexical_spec_witness :
    (rerank_chunks_lexical 1 "prix tarif communiqué" [c4B, c4A]).indexOf c4A
      < (rerank_chunks_lexical 1 "prix tarif communiqué" [c4B, c4A]).indexOf c4B :=
  (rerank_chunks_lexical_spec 1 "prix tarif communiqué" [c4B, c4A]).2.2 c4A c4B
    (le_refl 1) (by decide) (by decide)
    (by
      have h : lexical_overlap_score "prix tarif communiqué" c4A.content
          = ((2 : ℕ) : ℚ) / ((3 : ℕ) : ℚ) := rfl
      rw [h]
      norm_num)
    (by
      have h : lexical_overlap_score "prix tarif communiqué" c4B.content
          = ((0 : ℕ) : ℚ) / ((3 : ℕ) : ℚ) := rfl
      rw [h]
      norm_num)

/-! ### Lemmas for claim C3 -/

theorem rrfRankSum_cons (rrfK : ℚ) (id : String) (c : RetrievedChunk)
    (rest : List RetrievedChunk) (rank : ℕ) :
    rrfRankSum rrfK id (c :: rest) rank
      = (if rrfKey c = id then 1 / (rrfK + rank) else 0)
        + rrfRankSum rrfK id rest (rank + 1) := rfl

theorem enumFrom_weight_sum (rrfK : ℚ) (id : String) :
    ∀ (l : List RetrievedChunk) (start : ℕ),
    (((l.enumFrom start).filter (fun ic => rrfKey ic.2 = id)).map
      (fun ic => 1 / (rrfK + ic.1 + 1))).sum = rrfRankSum rrfK id l (start + 1) := by
  intro l
  induction l with
  | nil => intro start; simp [rrfRankSum]
  | cons c rest ih =>
      intro start
      rw [List.enumFrom_cons, List.filter_cons]
      by_cases h : rrfKey c = id
      · have hd : (decide (rrfKey c = id)) = true := by simp [h]
        simp only [hd, if_true, List.map_cons, List.sum_cons, ih (start + 1)]
        rw [rrfRankSum_cons, if_pos h]
        push_cast
        ring
      · have hd : (decide (rrfKey c = id)) = false := by simp [h]
        simp only [hd, Bool.false_eq_true, if_false, ih (start + 1)]
        rw [rrfRankSum_cons, if_neg h]
        ring

theorem enum_map_key (l : List RetrievedChunk) :
    (l.enum).map (fun ic => rrfKey ic.2) = l.map rrfKey := by
  rw [show (fun ic : ℕ × RetrievedChunk => rrfKey ic.2) = rrfKey ∘ Prod.snd from rfl,
    ← List.map_map, List.enum_map_snd]

/-- The fused-score dict of `reciprocal_rank_fusion` holds exactly the
claim's score for every identifier. -/
theorem rrfFused_lookup (rrfK : ℚ) (vec kw : List RetrievedChunk) (id : String) :
    alookupQ id (kw.enum.foldl
      (fun m ic => dictAddQ (rrfKey ic.2) (1 / (rrfK + ic.1 + 1)) m)
      (vec.enum.foldl
        (fun m ic => dictAddQ (rrfKey ic.2) (1 / (rrfK + ic.1 + 1)) m) []))
      = claimFusedScore rrfK vec kw id := by
  have h1 := alookupQ_foldl_dictAddQ (fun ic : ℕ × RetrievedChunk => rrfKey ic.2)
    (fun ic : ℕ × RetrievedChunk => 1 / (rrfK + ic.1 + 1)) kw.enum id
    (vec.enum.foldl (fun m ic => dictAddQ (rrfKey ic.2) (1 / (rrfK + ic.1 + 1)) m) [])
  have h2 := alookupQ_foldl_dictAddQ (fun ic : ℕ × RetrievedChunk => rrfKey ic.2)
    (fun ic : ℕ × RetrievedChunk => 1 / (rrfK + ic.1 + 1)) vec.enum id []
  rw [h1, h2]
  have h0 : alookupQ id ([] : List (String × ℚ)) = 0 := rfl
  rw [h0]
  have hv := enumFrom_weight_sum rrfK id vec 0
  have hk := enumFrom_weight_sum rrfK id kw 0
  rw [show vec.enum = vec.enumFrom 0 from rfl, show kw.enum = kw.enumFrom 0 from rfl]
  rw [hv, hk]
  show 0 + rrfRankSum rrfK id vec 1 + rrfRankSum rrfK id kw 1 = _
  unfold claimFusedScore rrfContrib
  ring

theorem rrfRankSum_nonneg (rrfK : ℚ) (id : String) (hK : 0 ≤ rrfK) :
    ∀ (l : List RetrievedChunk) (rank : ℕ), 0 ≤ rrfRankSum rrfK id l rank := by
  intro l
  induction l with
  | nil => intro rank; simp [rrfRankSum]
  | cons c rest ih =>
      intro rank
      have h1 : (0 : ℚ) ≤ (if rrfKey c = id then 1 / (rrfK + rank) else 0) := by
        by_cases h : rrfKey c = id
        · rw [if_pos h]
          apply div_nonneg (by norm_num)
          exact add_nonneg hK (Nat.cast_nonneg rank)
        · simp [h]
      rw [rrfRankSum_cons]
      exact add_nonneg h1 (ih (rank + 1))

theorem rrfRankSum_zero_of_not_mem (rrfK : ℚ) (id : String) :
    ∀ (l : List RetrievedChunk) (rank : ℕ), id ∉ l.map rrfKey →
      rrfRankSum rrfK id l rank = 0 := by
  intro l
  induction l with
  | nil => intro rank _; rfl
  | cons c rest ih =>
      intro rank hmem
      simp only [List.map_cons, List.mem_cons] at hmem
      push_neg at hmem
      rw [rrfRankSum_cons, if_neg (fun h => hmem.1 h.symm), ih (rank + 1) hmem.2]
      ring

theorem rrfRankSum_le_of_count_one (rrfK : ℚ) (id : String) (hK : 0 ≤ rrfK) :
    ∀ (l : List RetrievedChunk) (rank : ℕ), 1 ≤ rank →
      (l.map rrfKey).count id = 1 →
      rrfRankSum rrfK id l rank ≤ 1 / (rrfK + rank) := by
  intro l
  induction l with
  | nil => intro rank _ hc; simp at hc
  | cons c rest ih =>
      intro rank h1 hc
      rw [List.map_cons, List.count_cons] at hc
      rw [rrfRankSum_cons]
      by_cases h : rrfKey c = id
      · have hz : (rest.map rrfKey).count id = 0 := by
          simp only [h, beq_self_eq_true, if_true] at hc
          omega
        rw [if_pos h,
          rrfRankSum_zero_of_not_mem rrfK id rest (rank + 1) (List.count_eq_zero.mp hz)]
        simp
      · have hite : (if rrfKey c == id then 1 else 0) = 0 := by simp [h]
        rw [hite] at hc
        have hcrest : (rest.map rrfKey).count id = 1 := by omega
        rw [if_neg h]
        have hih := ih (rank + 1) (by omega) hcrest
        have hmono : 1 / (rrfK + ((rank + 1 : ℕ) : ℚ)) ≤ 1 / (rrfK + (rank : ℚ)) := by
          apply one_div_le_one_div_of_le
          · have : (1 : ℚ) ≤ (rank : ℚ) := by exact_mod_cast h1
            linarith
          · push_cast
            linarith
        linarith

/-- Claim C3: reciprocal rank fusion.  The output is truncated to
`top_k`; every output chunk is taken from the vector list whenever its
identifier occurs there (vector precedence) and from the keyword list
otherwise; the output is ordered by descending fused score, where the
fused score of an identifier is the sum over both lists of
`1/(K + rank)` at its 1-based ranks; each identifier appears at most
once; and an identifier at rank 1 of both lists has a strictly larger
fused score than any identifier occurring only once in the two lists —
in particular one at rank 1 of a single list, whose contribution
`1/(K+1)` is the largest a single occurrence can make — and hence
precedes it wherever both appear in the output. -/
theorem reciprocal_rank_fusion_spec (rrfK : ℚ) (vec kw : List RetrievedChunk)
    (topK : ℕ) :
    (reciprocal_rank_fusion rrfK vec kw topK).length ≤ topK ∧
    (∀ c ∈ reciprocal_rank_fusion rrfK vec kw topK,
      c ∈ vec ∨ (c ∈ kw ∧ rrfKey c ∉ vec.map rrfKey)) ∧
    (reciprocal_rank_fusion rrfK vec kw topK).Pairwise
      (fun a b => claimFusedScore rrfK vec kw (rrfKey b)
        ≤ claimFusedScore rrfK vec kw (rrfKey a)) ∧
    ((reciprocal_rank_fusion rrfK vec kw topK).map rrfKey).Nodup ∧
    (∀ idA idB, 0 ≤ rrfK → idA ≠ idB →
      (∃ a ∈ vec.head?, rrfKey a = idA) →
      (∃ a2 ∈ kw.head?, rrfKey a2 = idA) →
      (vec.map rrfKey ++ kw.map rrfKey).count idB = 1 →
      claimFusedScore rrfK vec kw idB < claimFusedScore rrfK vec kw idA ∧
      ∀ (i j : Fin (reciprocal_rank_fusion rrfK vec kw topK).length),
        rrfKey ((reciprocal_rank_fusion rrfK vec kw topK).get i) = idA →
        rrfKey ((reciprocal_rank_fusion rrfK vec kw topK).get j) = idB →
        (i : ℕ) < (j : ℕ)) := by
  set F := kw.enum.foldl (fun m ic => dictAddQ (rrfKey ic.2) (1 / (rrfK + ic.1 + 1)) m)
      (vec.enum.foldl (fun m ic => dictAddQ (rrfKey ic.2) (1 / (rrfK + ic.1 + 1)) m) [])
    with hF
  set byId := kw.foldl (fun m c => dictSetdefault (rrfKey c) c m)
      (vec.foldl (fun m c => dictSet (rrfKey c) c m) []) with hB
  have hout : reciprocal_rank_fusion rrfK vec kw topK
      = (((sortDescBy (fun kv : String × ℚ => kv.2) F).map Prod.fst).take topK).filterMap
          (fun id => alookup id byId) := rfl
  have hbyid : ∀ id, alookup id byId
      = (vec.reverse.find? (fun c => rrfKey c = id)).or
        (kw.find? (fun c => rrfKey c = id)) := by
    intro id
    rw [hB, alookup_foldl_dictSetdefault, alookup_foldl_dictSet]
    rw [show alookup id ([] : List (String × RetrievedChunk)) = none from rfl]
    cases vec.reverse.find? (fun c => rrfKey c = id) <;> rfl
  have hbyid_key : ∀ id c, alookup id byId = some c → rrfKey c = id := by
    intro id c h
    rw [hbyid] at h
    cases hv : vec.reverse.find? (fun c => rrfKey c = id) with
    | some c2 =>
        rw [hv] at h
        rw [show (some c2).or (kw.find? (fun c => rrfKey c = id)) = some c2 from rfl] at h
        cases h
        simpa using List.find?_some hv
    | none =>
        rw [hv] at h
        rw [show (Option.none).or (kw.find? (fun c => rrfKey c = id))
          = kw.find? (fun c => rrfKey c = id) from rfl] at h
        simpa using List.find?_some h
  have hbyid_mem : ∀ id c, alookup id byId = some c →
      c ∈ vec ∨ (c ∈ kw ∧ id ∉ vec.map rrfKey) := by
    intro id c h
    rw [hbyid] at h
    cases hv : vec.reverse.find? (fun c => rrfKey c = id) with
    | some c2 =>
        rw [hv] at h
        rw [show (some c2).or (kw.find? (fun c => rrfKey c = id)) = some c2 from rfl] at h
        cases h
        exact Or.inl (List.mem_reverse.mp (List.mem_of_find?_eq_some hv))
    | none =>
        rw [hv] at h
        rw [show (Option.none).or (kw.find? (fun c => rrfKey c = id))
          = kw.find? (fun c => rrfKey c = id) from rfl] at h
        refine Or.inr ⟨List.mem_of_find?_eq_some h, ?_⟩
        intro hmem
        rcases List.mem_map.mp hmem with ⟨v, hvmem, hvkey⟩
        have := List.find?_eq_none.mp hv v (List.mem_reverse.mpr hvmem)
        simp [hvkey] at this
  have hbyid_some : ∀ id, id ∈ vec.map rrfKey ∨ id ∈ kw.map rrfKey →
      ∃ c, alookup id byId = some c := by
    intro id hid
    cases hv : vec.reverse.find? (fun c => rrfKey c = id) with
    | some c =>
        exact ⟨c, by rw [hbyid, hv]; simp⟩
    | none =>
        rcases hid with hid | hid
        · exfalso
          rcases List.mem_map.mp hid with ⟨v, hvmem, hvkey⟩
          have := List.find?_eq_none.mp hv v (List.mem_reverse.mpr hvmem)
          simp [hvkey] at this
        · rcases List.mem_map.mp hid with ⟨k2, hkmem, hkkey⟩
          cases hk : kw.find? (fun c => rrfKey c = id) with
          | some c => exact ⟨c, by rw [hbyid, hv, hk]; simp⟩
          | none =>
              exfalso
              have := List.find?_eq_none.mp hk k2 hkmem
              simp [hkkey] at this
  have hkeys : ∀ id, id ∈ F.map Prod.fst ↔ id ∈ vec.map rrfKey ∨ id ∈ kw.map rrfKey := by
    intro id
    have h1 := mem_keys_foldl_dictAddQ (fun ic : ℕ × RetrievedChunk => rrfKey ic.2)
      (fun ic : ℕ × RetrievedChunk => 1 / (rrfK + ic.1 + 1)) kw.enum id
      (vec.enum.foldl (fun m ic => dictAddQ (rrfKey ic.2) (1 / (rrfK + ic.1 + 1)) m) [])
    have h2 := mem_keys_foldl_dictAddQ (fun ic : ℕ × RetrievedChunk => rrfKey ic.2)
      (fun ic : ℕ × RetrievedChunk => 1 / (rrfK + ic.1 + 1)) vec.enum id []
    rw [hF]
    rw [h1, h2, enum_map_key, enum_map_key]
    simp
  have hFnodup : (F.map Prod.fst).Nodup := by
    rw [hF]
    apply keys_nodup_foldl_dictAddQ
    apply keys_nodup_foldl_dictAddQ
    simp
  have hscore : ∀ id, alookupQ id F = claimFusedScore rrfK vec kw id := by
    intro id
    rw [hF]
    exact rrfFused_lookup rrfK vec kw id
  have hsperm := sortDescBy_perm (fun kv : String × ℚ => kv.2) F
  have hsorted := sortDescBy_pairwise (fun kv : String × ℚ => kv.2) F
  have hpair_val : ∀ pr ∈ sortDescBy (fun kv : String × ℚ => kv.2) F,
      alookupQ pr.1 F = pr.2 := by
    intro pr hpr
    obtain ⟨k, v⟩ := pr
    have hmemF : (k, v) ∈ F := hsperm.mem_iff.mp hpr
    unfold alookupQ
    rw [alookup_eq_of_mem_nodup F k v hFnodup hmemF]
    rfl
  have hids_pairwise : (((sortDescBy (fun kv : String × ℚ => kv.2) F).map
      Prod.fst)).Pairwise
      (fun id1 id2 => claimFusedScore rrfK vec kw id2
        ≤ claimFusedScore rrfK vec kw id1) := by
    apply pairwise_map_of_mem hsorted
    intro a ha b hb hr
    rw [← hscore a.1, ← hscore b.1, hpair_val a ha, hpair_val b hb]
    exact hr
  have htake_pairwise := hids_pairwise.sublist (List.take_sublist topK _)
  have hout_pairwise : (reciprocal_rank_fusion rrfK vec kw topK).Pairwise
      (fun a b => claimFusedScore rrfK vec kw (rrfKey b)
        ≤ claimFusedScore rrfK vec kw (rrfKey a)) := by
    rw [hout]
    refine pairwise_filterMap_of ?_ htake_pairwise
    intro id1 id2 c1 c2 hr h1 h2
    rw [hbyid_key id1 c1 h1, hbyid_key id2 c2 h2]
    exact hr
  refine ⟨?_, ?_, hout_pairwise, ?_, ?_⟩
  · rw [hout]
    calc ((((sortDescBy (fun kv : String × ℚ => kv.2) F).map Prod.fst).take
          topK).filterMap (fun id => alookup id byId)).length
        ≤ (((sortDescBy (fun kv : String × ℚ => kv.2) F).map Prod.fst).take
          topK).length := List.length_filterMap_le _ _
    _ ≤ topK := List.length_take_le _ _
  · intro c hc
    rw [hout] at hc
    rcases List.mem_filterMap.mp hc with ⟨id, _, hlk⟩
    have hk := hbyid_key id c hlk
    rcases hbyid_mem id c hlk with h | ⟨h1, h2⟩
    · exact Or.inl h
    · exact Or.inr ⟨h1, by rw [hk]; exact h2⟩
  · -- Nodup of the output identifiers
    have hids_nodup : (((sortDescBy (fun kv : String × ℚ => kv.2) F).map
        Prod.fst)).Nodup := by
      have hpm : List.Perm ((sortDescBy (fun kv : String × ℚ => kv.2) F).map Prod.fst)
          (F.map Prod.fst) := hsperm.map Prod.fst
      exact (hpm.nodup_iff).mpr hFnodup
    have htake_nodup := hids_nodup.sublist (List.take_sublist topK _)
    have hsome : ∀ id ∈ ((sortDescBy (fun kv : String × ℚ => kv.2) F).map
        Prod.fst).take topK, ∃ c, alookup id byId = some c := by
      intro id hid
      have hid2 : id ∈ (sortDescBy (fun kv : String × ℚ => kv.2) F).map Prod.fst :=
        (List.take_sublist topK _).subset hid
      have hid3 : id ∈ F.map Prod.fst := (hsperm.map Prod.fst).mem_iff.mp hid2
      exact hbyid_some id ((hkeys id).mp hid3)
    have hmapkeys : ∀ ids : List String,
        (∀ id ∈ ids, ∃ c, alookup id byId = some c) →
        ((ids.filterMap (fun id => alookup id byId)).map rrfKey) = ids := by
      intro ids
      induction ids with
      | nil => intro _; rfl
      | cons id rest ih =>
          intro h
          obtain ⟨c, hc⟩ := h id (by simp)
          rw [List.filterMap_cons, hc, List.map_cons, hbyid_key id c hc,
            ih (fun id2 hid2 => h id2 (by simp [hid2]))]
    rw [hout, hmapkeys _ hsome]
    exact htake_nodup
  · intro idA idB hK hne hA hA2 hcount
    have hq1pos : (0 : ℚ) < 1 / (rrfK + 1) := by
      apply div_pos one_pos
      linarith
    have hcast1 : ((1 : ℕ) : ℚ) = 1 := Nat.cast_one
    -- lower bound for idA
    obtain ⟨a, ha, hakey⟩ := hA
    obtain ⟨a2, ha2, ha2key⟩ := hA2
    have hvcons : ∃ tl, vec = a :: tl := by
      cases vec with
      | nil => simp at ha
      | cons x xs =>
          simp only [List.head?_cons, Option.mem_def, Option.some.injEq] at ha
          exact ⟨xs, by rw [ha]⟩
    have hkcons : ∃ tl, kw = a2 :: tl := by
      cases kw with
      | nil => simp at ha2
      | cons x xs =>
          simp only [List.head?_cons, Option.mem_def, Option.some.injEq] at ha2
          exact ⟨xs, by rw [ha2]⟩
    obtain ⟨vtl, hveq⟩ := hvcons
    obtain ⟨ktl, hkeq⟩ := hkcons
    have hAge : 1 / (rrfK + 1) + 1 / (rrfK + 1) ≤ claimFusedScore rrfK vec kw idA := by
      unfold claimFusedScore rrfContrib
      rw [hveq, hkeq, rrfRankSum_cons, rrfRankSum_cons, if_pos hakey, if_pos ha2key,
        hcast1]
      have n1 := rrfRankSum_nonneg rrfK idA hK vtl 2
      have n2 := rrfRankSum_nonneg rrfK idA hK ktl 2
      linarith
    have hBle : claimFusedScore rrfK vec kw idB ≤ 1 / (rrfK + 1) := by
      unfold claimFusedScore rrfContrib
      rw [List.count_append] at hcount
      have h01 : ((vec.map rrfKey).count idB = 1 ∧ (kw.map rrfKey).count idB = 0) ∨
          ((vec.map rrfKey).count idB = 0 ∧ (kw.map rrfKey).count idB = 1) := by
        omega
      rcases h01 with ⟨h1, h2⟩ | ⟨h1, h2⟩
      · have hb2 := rrfRankSum_zero_of_not_mem rrfK idB kw 1 (List.count_eq_zero.mp h2)
        have hb1 := rrfRankSum_le_of_count_one rrfK idB hK vec 1 (le_refl 1) h1
        rw [hcast1] at hb1
        rw [hb2]
        linarith
      · have hb1 := rrfRankSum_zero_of_not_mem rrfK idB vec 1 (List.count_eq_zero.mp h1)
        have hb2 := rrfRankSum_le_of_count_one rrfK idB hK kw 1 (le_refl 1) h2
        rw [hcast1] at hb2
        rw [hb1]
        linarith
    have hscoreAB : claimFusedScore rrfK vec kw idB
        < claimFusedScore rrfK vec kw idA := by
      linarith
    refine ⟨hscoreAB, ?_⟩
    intro i j hi hj
    have hab : claimFusedScore rrfK vec kw
        (rrfKey ((reciprocal_rank_fusion rrfK vec kw topK).get j))
        < claimFusedScore rrfK vec kw
        (rrfKey ((reciprocal_rank_fusion rrfK vec kw topK).get i)) := by
      rw [hi, hj]
      exact hscoreAB
    exact pairwise_desc_position (fun c => claimFusedScore rrfK vec kw (rrfKey c))
      hout_pairwise hab i j rfl rfl

/-- Witness for C3: identifier `A` at rank 1 of both lists strictly
outscores identifier `B`, which occurs once. -/
theorem reciprocal_rank_fusion_spec_witness :
    claimFusedScore 60 [c3a, c3b] [c3a2] "B" < claimFusedScore 60 [c3a, c3b] [c3a2] "A" :=
  ((reciprocal_rank_fusion_spec 60 [c3a, c3b] [c3a2] 2).2.2.2.2 "A" "B"
    (by norm_num) (by decide) ⟨c3a, Option.mem_def.mpr rfl, rfl⟩
    ⟨c3a2, Option.mem_def.mpr rfl, rfl⟩ (by decide)).1

theorem keyword_search_bm25_eq (query : String) (top_k : ℕ) (rows : List BmRow)
    (hq : tokenize_lexical query ≠ []) (hr : rows ≠ []) :
    keyword_search_bm25 query top_k rows
      = (((sortDescBy (fun sr : ℚ × BmRow => sr.1)
          ((rows.map (fun r => (bm25RowScore query rows r, r))).filter
            (fun sr => 0 < sr.1))).take top_k).map bm25MkChunk) := by
  unfold keyword_search_bm25
  rw [if_neg hq, if_neg hr]
  rfl

theorem filter_of_map {α β : Type} (f : α → β) (p : β → Bool) (l : List α) :
    (l.map f).filter p = (l.filter (fun a => p (f a))).map f := by
  induction l with
  | nil => rfl
  | cons x xs ih =>
      by_cases h : p (f x)
      · simp [List.filter_cons, h, ih]
      · simp [List.filter_cons, h, ih]

/-- Claim C5: `keyword_search_bm25` scores each chunk of the fetched
corpus window with the BM25 formula at `k1 = 3/2`, `b = 3/4` and
document length normalised by the corpus's average token length (each
returned chunk's score is the sum of the per-term contributions
`idf·f·(k1+1)/(f + k1(1−b+b·len/avgdl))`); a query term absent from a
document contributes nothing to its score; chunks scoring exactly zero
are excluded; output is sorted by descending score; and score ties are
broken by recency — the rows arrive most-recent-first from the SQL
`ORDER BY created_at DESC`, and for every score value the returned
identifiers form a prefix of the positive-scoring identifiers of that
value in row (recency) order. -/
theorem keyword_search_bm25_spec (query : String) (top_k : ℕ) (rows : List BmRow) :
    (∀ c ∈ keyword_search_bm25 query top_k rows, 0 < c.score) ∧
    (keyword_search_bm25 query top_k rows).Pairwise (fun a b => b.score ≤ a.score) ∧
    (∀ c ∈ keyword_search_bm25 query top_k rows, ∃ r ∈ rows,
      c.content = r.content ∧ c.point_id = some r.id ∧
      c.score = ((tokenize_lexical query).map (fun t =>
        bm25TermContribution rows.length (bm25AvgDl (bm25Docs rows))
          (docFreq (bm25Docs rows) t) (termFreq (tokenize_lexical r.content) t)
          (max 1 (tokenize_lexical r.content).length))).sum) ∧
    (∀ (t : String) (numRows : ℕ) (avgdl : ℚ) (df : String → ℕ)
        (qts tokens : List String),
      termFreq tokens t = 0 →
      bm25DocScore numRows avgdl df (qts ++ [t]) tokens
        = bm25DocScore numRows avgdl df qts tokens) ∧
    (∀ q0 : ℚ, ∃ suffix,
      ((rows.filter (fun r => bm25RowScore query rows r = q0
          ∧ 0 < bm25RowScore query rows r)).map (fun r => some r.id))
        = ((keyword_search_bm25 query top_k rows).filter
            (fun c => c.score = q0)).map (fun c => c.point_id) ++ suffix) := by
  have habsent : ∀ (t : String) (numRows : ℕ) (avgdl : ℚ) (df : String → ℕ)
      (qts tokens : List String),
      termFreq tokens t = 0 →
      bm25DocScore numRows avgdl df (qts ++ [t]) tokens
        = bm25DocScore numRows avgdl df qts tokens := by
    intro t numRows avgdl df qts tokens h
    unfold bm25DocScore
    rw [List.foldl_append]
    simp [h]
  by_cases hq : tokenize_lexical query = []
  · have hres : keyword_search_bm25 query top_k rows = [] := by
      unfold keyword_search_bm25
      rw [if_pos hq]
    have hscore0 : ∀ r, bm25RowScore query rows r = 0 := by
      intro r
      unfold bm25RowScore
      rw [hq]
      rfl
    refine ⟨?_, ?_, ?_, habsent, ?_⟩
    · intro c hc; rw [hres] at hc; simp at hc
    · rw [hres]; simp
    · intro c hc; rw [hres] at hc; simp at hc
    · intro q0
      refine ⟨[], ?_⟩
      rw [hres]
      have : rows.filter (fun r => bm25RowScore query rows r = q0
          ∧ 0 < bm25RowScore query rows r) = [] := by
        apply List.filter_eq_nil_iff.mpr
        intro r _
        simp only [decide_eq_true_eq, not_and]
        intro _
        rw [hscore0]
        exact lt_irrefl 0
      rw [this]
      rfl
  · by_cases hr : rows = []
    · have hres : keyword_search_bm25 query top_k rows = [] := by
        unfold keyword_search_bm25
        rw [if_neg hq, if_pos hr]
      refine ⟨?_, ?_, ?_, habsent, ?_⟩
      · intro c hc; rw [hres] at hc; simp at hc
      · rw [hres]; simp
      · intro c hc; rw [hres] at hc; simp at hc
      · intro q0
        refine ⟨[], ?_⟩
        rw [hres, hr]
        rfl
    · have heq := keyword_search_bm25_eq query top_k rows hq hr
      set scored := rows.map (fun r => (bm25RowScore query rows r, r)) with hscored
      set positive := scored.filter (fun sr => 0 < sr.1) with hpositive
      have hmem_pos : ∀ sr ∈ positive, sr ∈ scored ∧ 0 < sr.1 := by
        intro sr hsr
        rw [hpositive] at hsr
        refine ⟨List.mem_of_mem_filter hsr, ?_⟩
        have := List.of_mem_filter hsr
        simpa using this
      refine ⟨?_, ?_, ?_, habsent, ?_⟩
      · intro c hc
        rw [heq] at hc
        rcases List.mem_map.mp hc with ⟨sr, hsr, rfl⟩
        have hsr1 : sr ∈ sortDescBy (fun sr : ℚ × BmRow => sr.1) positive :=
          (List.take_sublist top_k _).subset hsr
        have hsr2 : sr ∈ positive := (sortDescBy_perm _ _).mem_iff.mp hsr1
        exact (hmem_pos sr hsr2).2
      · rw [heq]
        apply pairwise_map_of_mem
          ((sortDescBy_pairwise (fun sr : ℚ × BmRow => sr.1) positive).sublist
            (List.take_sublist _ _))
        intro a _ b _ hr2
        exact hr2
      · intro c hc
        rw [heq] at hc
        rcases List.mem_map.mp hc with ⟨sr, hsr, rfl⟩
        have hsr1 : sr ∈ sortDescBy (fun sr : ℚ × BmRow => sr.1) positive :=
          (List.take_sublist top_k _).subset hsr
        have hsr2 : sr ∈ positive := (sortDescBy_perm _ _).mem_iff.mp hsr1
        have hsr3 : sr ∈ scored := (hmem_pos sr hsr2).1
        rw [hscored] at hsr3
        rcases List.mem_map.mp hsr3 with ⟨r, hrmem, hreq⟩
        refine ⟨r, hrmem, ?_, ?_, ?_⟩
        · rw [← hreq]; rfl
        · rw [← hreq]; rfl
        · rw [← hreq]
          show bm25RowScore query rows r = _
          unfold bm25RowScore
          exact bm25DocScore_eq_sum _ _ _ _ _
      · intro q0
        -- stability: equal-score output identifiers are a prefix of the
        -- equal-score positive rows in recency order
        have hs1 : ((sortDescBy (fun sr : ℚ × BmRow => sr.1) positive).filter
            (fun sr => sr.1 = q0)) = positive.filter (fun sr => sr.1 = q0) :=
          sortDescBy_filter_eq (fun sr : ℚ × BmRow => sr.1) positive q0
        obtain ⟨tl, htl⟩ := filter_take_prefix (fun sr : ℚ × BmRow => sr.1 = q0)
          (sortDescBy (fun sr : ℚ × BmRow => sr.1) positive) top_k
        refine ⟨tl.map (fun sr => some sr.2.id), ?_⟩
        rw [heq]
        rw [filter_of_map bm25MkChunk (fun c => c.score = q0)]
        rw [List.map_map]
        have hcomp1 : ((fun c : RetrievedChunk => c.point_id) ∘ bm25MkChunk)
            = fun sr : ℚ × BmRow => some sr.2.id := rfl
        have hpred : (fun sr : ℚ × BmRow => decide (( bm25MkChunk sr).score = q0))
            = fun sr : ℚ × BmRow => decide (sr.1 = q0) := rfl
        rw [hcomp1, hpred]
        have hlhs : rows.filter (fun r => bm25RowScore query rows r = q0
            ∧ 0 < bm25RowScore query rows r)
            = (positive.filter (fun sr => sr.1 = q0)).map (fun sr => sr.2) := by
          rw [hpositive, hscored]
          rw [List.filter_filter]
          rw [filter_of_map (fun r => (bm25RowScore query rows r, r))]
          rw [List.map_map]
          have : ((fun sr : ℚ × BmRow => sr.2)
              ∘ fun r => (bm25RowScore query rows r, r)) = id := rfl
          rw [this, List.map_id]
          congr 1
          funext a
          simp
        have hmapeq : (rows.filter (fun r => bm25RowScore query rows r = q0
            ∧ 0 < bm25RowScore query rows r)).map (fun r => some r.id)
            = (positive.filter (fun sr => sr.1 = q0)).map (fun sr => some sr.2.id) := by
          rw [hlhs, List.map_map]
          rfl
        rw [hmapeq, ← hs1, htl, List.map_append]

/-- Witness for C5: appending a query term absent from the document
leaves the document's score unchanged. -/
theorem keyword_search_bm25_spec_witness :
    bm25DocScore 2 5 (fun _ => 1) (["a"] ++ ["zz"]) ["a", "b"]
      = bm25DocScore 2 5 (fun _ => 1) ["a"] ["a", "b"] :=
  (keyword_search_bm25_spec "a" 3 []).2.2.2.1 "zz" 2 5 (fun _ => 1) ["a"] ["a", "b"]
    (by decide)

/-- In every branch of the pipeline, `primaryFused` records the fused
result of the first (intent-scoped, thresholded) search. -/
lemma retrieveRagPipeline_primaryFused (cfg : RagConfig) (env : RagEnv)
    (query : String) (intent : Option String) :
    (retrieveRagPipeline cfg env query intent).primaryFused
      = reciprocal_rank_fusion cfg.rrfK
          (env.search (some cfg.scoreThreshold) (normalize_intent intent))
          env.keyword cfg.topK := by
  simp only [retrieveRagPipeline]
  split <;> (repeat' split) <;> rfl

/-- Claim C2 (amended): with an intent set, when the primary
intent-scoped fused result set is non-empty no further search call is
issued, and if the intent filter empties it the unfiltered fused
(semantic) results are kept as the working set; when the filter keeps
something, the filtered set is used.  (The original claim quantified
over any non-empty working set; the code ties the keep condition to the
primary fused set, so a working set obtained by a fallback retry while
the primary fused set was empty is discarded when the filter empties
it — see the counterexample.) -/
theorem retrieve_rag_intent_keep_spec (cfg : RagConfig) (env : RagEnv)
    (query : String) (intent : Option String) (i : String)
    (hn : normalize_intent intent = some i) :
    ((retrieveRagPipeline cfg env query intent).primaryFused ≠ [] →
      (retrieveRagPipeline cfg env query intent).searchCalls
        = [(some cfg.scoreThreshold, some i)]) ∧
    ((retrieveRagPipeline cfg env query intent).primaryFused ≠ [] →
      (retrieveRagPipeline cfg env query intent).filteredAtIntent = [] →
      (retrieveRagPipeline cfg env query intent).afterIntentFilter
        = (retrieveRagPipeline cfg env query intent).primaryFused) ∧
    ((retrieveRagPipeline cfg env query intent).primaryFused ≠ [] →
      (retrieveRagPipeline cfg env query intent).filteredAtIntent ≠ [] →
      (retrieveRagPipeline cfg env query intent).afterIntentFilter
        = (retrieveRagPipeline cfg env query intent).filteredAtIntent) := by
  by_cases hf : (retrieveRagPipeline cfg env query intent).primaryFused = []
  · exact ⟨fun h => absurd hf h, fun h _ => absurd hf h, fun h _ => absurd hf h⟩
  · have hf2 : reciprocal_rank_fusion cfg.rrfK
        (env.search (some cfg.scoreThreshold) (some i)) env.keyword cfg.topK ≠ [] := by
      rw [retrieveRagPipeline_primaryFused, hn] at hf
      exact hf
    by_cases hfil : (reciprocal_rank_fusion cfg.rrfK
        (env.search (some cfg.scoreThreshold) (some i)) env.keyword cfg.topK).filter
        (fun c => source_matches_intent c.payload i) = []
    · have htr : retrieveRagPipeline cfg env query intent =
        { primaryFused := reciprocal_rank_fusion cfg.rrfK
            (env.search (some cfg.scoreThreshold) (some i)) env.keyword cfg.topK
          workingAtFilter := reciprocal_rank_fusion cfg.rrfK
            (env.search (some cfg.scoreThreshold) (some i)) env.keyword cfg.topK
          filteredAtIntent := []
          afterIntentFilter := reciprocal_rank_fusion cfg.rrfK
            (env.search (some cfg.scoreThreshold) (some i)) env.keyword cfg.topK
          usedFileFallback := false
          selected := (rerank_chunks_lexical cfg.lexicalWeight (rewrite_query query)
            (reciprocal_rank_fusion cfg.rrfK
              (env.search (some cfg.scoreThreshold) (some i)) env.keyword
              cfg.topK)).take cfg.topK
          searchCalls := [(some cfg.scoreThreshold, some i)] } := by
        simp only [retrieveRagPipeline, hn]
        rw [if_neg hf2]
        simp [hfil, hf2]
      rw [htr]
      refine ⟨fun _ => rfl, fun _ _ => rfl, fun _ hc => absurd rfl hc⟩
    · have htr : retrieveRagPipeline cfg env query intent =
        { primaryFused := reciprocal_rank_fusion cfg.rrfK
            (env.search (some cfg.scoreThreshold) (some i)) env.keyword cfg.topK
          workingAtFilter := reciprocal_rank_fusion cfg.rrfK
            (env.search (some cfg.scoreThreshold) (some i)) env.keyword cfg.topK
          filteredAtIntent := (reciprocal_rank_fusion cfg.rrfK
            (env.search (some cfg.scoreThreshold) (some i)) env.keyword cfg.topK).filter
            (fun c => source_matches_intent c.payload i)
          afterIntentFilter := (reciprocal_rank_fusion cfg.rrfK
            (env.search (some cfg.scoreThreshold) (some i)) env.keyword cfg.topK).filter
            (fun c => source_matches_intent c.payload i)
          usedFileFallback := false
          selected := (rerank_chunks_lexical cfg.lexicalWeight (rewrite_query query)
            ((reciprocal_rank_fusion cfg.rrfK
              (env.search (some cfg.scoreThreshold) (some i)) env.keyword
              cfg.topK).filter (fun c => source_matches_intent c.payload i))).take
            cfg.topK
          searchCalls := [(some cfg.scoreThreshold, some i)] } := by
        simp only [retrieveRagPipeline, hn]
        rw [if_neg hf2]
        simp [hfil, hf2]
      rw [htr]
      refine ⟨fun _ => rfl, fun _ hc => absurd hc hfil, fun _ _ => rfl⟩

/-- Witness for C2: a scoped search with one intent-matching result
issues no fallback search call and keeps the filtered set. -/
theorem retrieve_rag_intent_keep_spec_witness :
    (retrieveRagPipeline {} c2WEnv "cpm box ?" (some "formats")).searchCalls
      = [(some (45/100 : ℚ), some "formats")] ∧
    (retrieveRagPipeline {} c2WEnv "cpm box ?" (some "formats")).afterIntentFilter
      = (retrieveRagPipeline {} c2WEnv "cpm box ?" (some "formats")).filteredAtIntent := by
  have h := retrieve_rag_intent_keep_spec {} c2WEnv "cpm box ?" (some "formats")
    "formats" (by rfl)
  have hne : (retrieveRagPipeline {} c2WEnv "cpm box ?" (some "formats")).primaryFused
      ≠ [] := by
    rw [show (retrieveRagPipeline {} c2WEnv "cpm box ?" (some "formats")).primaryFused
        = [c2WChunk] from rfl]
    exact List.cons_ne_nil _ _
  have hfe : (retrieveRagPipeline {} c2WEnv "cpm box ?" (some "formats")).filteredAtIntent
      ≠ [] := by
    rw [show (retrieveRagPipeline {} c2WEnv "cpm box ?" (some "formats")).filteredAtIntent
        = [c2WChunk] from rfl]
    exact List.cons_ne_nil _ _
  exact ⟨h.1 hne, h.2.2 hne hfe⟩

/-- Counterexample for C2 as literally stated: here the working set at
the intent filter is the non-empty `[cexC]` (obtained by fallback while
the primary fused set was empty), the intent filter empties it, and the
code *discards* it — `cexC` does not appear in the selection, which
instead comes from the subsequent no-intent retry. -/
theorem retrieve_rag_intent_discard_cex :
    (retrieveRagPipeline {} cexEnv "q" (some "formats")).workingAtFilter = [cexC] ∧
    (retrieveRagPipeline {} cexEnv "q" (some "formats")).filteredAtIntent = [] ∧
    (retrieveRagPipeline {} cexEnv "q" (some "formats")).selected = [cexD] ∧
    cexC ∉ (retrieveRagPipeline {} cexEnv "q" (some "formats")).selected := by
  refine ⟨rfl, rfl, rfl, ?_⟩
  rw [show (retrieveRagPipeline {} cexEnv "q" (some "formats")).selected
      = [cexD] from rfl]
  intro hmem
  rw [List.mem_singleton] at hmem
  have hpid : cexC.point_id = cexD.point_id := congrArg RetrievedChunk.point_id hmem
  exact absurd hpid (by decide)

lemma rrf_nil_nil (k : ℚ) (n : Nat) : reciprocal_rank_fusion k [] [] n = [] := by
  simp [reciprocal_rank_fusion, sortDescBy]

lemma rerank_chunks_lexical_perm (w : ℚ) (q : String) (chunks : List RetrievedChunk) :
    List.Perm (rerank_chunks_lexical w q chunks) chunks := by
  unfold rerank_chunks_lexical
  have h := (sortDescBy_perm (fun item => toLex (item.1, toLex (item.2.1, item.2.2.score)))
      (chunks.map (rerankTriple (max 0 (min 1 w)) q))).map (fun item => item.2.2)
  have hcomp : ((fun item : ℚ × ℚ × RetrievedChunk => item.2.2)
      ∘ rerankTriple (max 0 (min 1 w)) q) = fun c => c := rfl
  simpa [List.map_map, hcomp] using h

lemma loadIntentGo_score_one (cfg : RagConfig) (intent : String) :
    ∀ (fs : List SourceFile), ∀ c ∈ loadIntentGo cfg intent fs, c.score = 1 := by
  intro fs
  induction fs with
  | nil => intro c hc; simp [loadIntentGo] at hc
  | cons f rest ih =>
      intro c hc
      simp only [loadIntentGo] at hc
      repeat' split at hc
      all_goals first
        | exact ih c hc
        | (simp only [List.mem_map] at hc
           obtain ⟨ic, hic, h⟩ := hc
           subst h
           rfl)

lemma load_intent_chunks_score_one (cfg : RagConfig) (files : Option (List SourceFile))
    (intent : String) : ∀ c ∈ load_intent_chunks cfg files intent, c.score = 1 := by
  cases files with
  | none => intro c hc; simp [load_intent_chunks] at hc
  | some fs => exact loadIntentGo_score_one cfg intent fs

/-- Claim C7 (amended): when an intent is set, every intent-scoped
search is empty, the keyword search is empty, and no result of the
unscoped retry searches matches the intent, then (provided the matching
source files yield at least one chunk) the pipeline uses the file
fallback: the selection is exactly the first `top_k` chunks produced by
`load_intent_chunks` — which reads the source file whose normalized
name matches the intent exactly or with an `intent_` prefix and chunks
it with the configured window — up to the deterministic reranking
permutation, all carrying the maximum score 1.  (The original claim
promised the fallback whenever no search result *matches the intent*;
the code only reaches it when the primary fused set is also empty, so a
non-matching keyword result suppresses the file fallback entirely — see
the counterexample.) -/
theorem load_intent_chunks_fallback_spec (cfg : RagConfig) (env : RagEnv)
    (query : String) (intent : Option String) (i : String)
    (hn : normalize_intent intent = some i)
    (hscoped : ∀ th, env.search th (some i) = [])
    (hkw : env.keyword = [])
    (hunm : ∀ th, ∀ c ∈ env.search th none, source_matches_intent c.payload i = false)
    (hfiles : (load_intent_chunks cfg env.files i).take cfg.topK ≠ []) :
    (retrieveRagPipeline cfg env query intent).usedFileFallback = true ∧
    List.Perm (retrieveRagPipeline cfg env query intent).selected
      ((load_intent_chunks cfg env.files i).take cfg.topK) ∧
    ∀ c ∈ (retrieveRagPipeline cfg env query intent).selected, c.score = 1 := by
  have hfilS : ∀ th, (env.search th none).filter
      (fun c => source_matches_intent c.payload i) = [] := by
    intro th
    rw [List.filter_eq_nil_iff]
    intro a ha
    simp [hunm th a ha]
  have key : (retrieveRagPipeline cfg env query intent).usedFileFallback = true ∧
      (retrieveRagPipeline cfg env query intent).selected
        = (rerank_chunks_lexical cfg.lexicalWeight (rewrite_query query)
            ((load_intent_chunks cfg env.files i).take cfg.topK)).take cfg.topK := by
    rcases hftb : intentThresholdFallback i with _ | ft
    · by_cases hc2 : env.search (some cfg.scoreThreshold) none = []
      · constructor <;>
          (simp only [retrieveRagPipeline, hn]
           simp [hscoped, hkw, rrf_nil_nil, hftb, hc2, hfilS, hfiles])
      · constructor <;>
          (simp only [retrieveRagPipeline, hn]
           simp [hscoped, hkw, rrf_nil_nil, hftb, hc2, hfilS, hfiles])
    · by_cases hfts : ft ≠ cfg.scoreThreshold
      · by_cases hc2 : env.search (some cfg.scoreThreshold) none = []
        · constructor <;>
            (simp only [retrieveRagPipeline, hn]
             simp [hscoped, hkw, rrf_nil_nil, hftb, hfts, hc2, hfilS, hfiles])
        · constructor <;>
            (simp only [retrieveRagPipeline, hn]
             simp [hscoped, hkw, rrf_nil_nil, hftb, hfts, hc2, hfilS, hfiles])
      · by_cases hc2 : env.search (some cfg.scoreThreshold) none = []
        · constructor <;>
            (simp only [retrieveRagPipeline, hn]
             simp [hscoped, hkw, rrf_nil_nil, hftb, hfts, hc2, hfilS, hfiles])
        · constructor <;>
            (simp only [retrieveRagPipeline, hn]
             simp [hscoped, hkw, rrf_nil_nil, hftb, hfts, hc2, hfilS, hfiles])
  have hperm : List.Perm (rerank_chunks_lexical cfg.lexicalWeight (rewrite_query query)
      ((load_intent_chunks cfg env.files i).take cfg.topK))
      ((load_intent_chunks cfg env.files i).take cfg.topK) :=
    rerank_chunks_lexical_perm _ _ _
  have hlen : (rerank_chunks_lexical cfg.lexicalWeight (rewrite_query query)
      ((load_intent_chunks cfg env.files i).take cfg.topK)).length ≤ cfg.topK := by
    rw [hperm.length_eq]
    exact List.length_take_le _ _
  have htake : (rerank_chunks_lexical cfg.lexicalWeight (rewrite_query query)
      ((load_intent_chunks cfg env.files i).take cfg.topK)).take cfg.topK
      = rerank_chunks_lexical cfg.lexicalWeight (rewrite_query query)
        ((load_intent_chunks cfg env.files i).take cfg.topK) :=
    List.take_of_length_le hlen
  refine ⟨key.1, ?_, ?_⟩
  · rw [key.2, htake]
    exact hperm
  · intro c hc
    rw [key.2, htake] at hc
    have hc2 : c ∈ (load_intent_chunks cfg env.files i).take cfg.topK :=
      hperm.mem_iff.mp hc
    exact load_intent_chunks_score_one cfg env.files i c (List.take_subset _ _ hc2)

/-- Witness for C7: with every search empty and a matching source file
present, the pipeline uses the file fallback and selects its chunks. -/
theorem load_intent_chunks_fallback_spec_witness :
    (retrieveRagPipeline {} c7WEnv "q2" (some "formats")).usedFileFallback = true ∧
    List.Perm (retrieveRagPipeline {} c7WEnv "q2" (some "formats")).selected
      ((load_intent_chunks {} c7WEnv.files "formats").take ({} : RagConfig).topK) := by
  have hfiles : (load_intent_chunks ({} : RagConfig) c7WEnv.files "formats").take
      ({} : RagConfig).topK ≠ [] := by
    intro h
    have h2 : ((load_intent_chunks ({} : RagConfig) c7WEnv.files "formats").take
        ({} : RagConfig).topK).length = 0 := by rw [h]; rfl
    rw [show ((load_intent_chunks ({} : RagConfig) c7WEnv.files "formats").take
        ({} : RagConfig).topK).length = 1 from rfl] at h2
    exact Nat.one_ne_zero h2
  have h := load_intent_chunks_fallback_spec {} c7WEnv "q2" (some "formats") "formats"
    rfl (fun _ => rfl) rfl (fun _ c hc => absurd hc (List.not_mem_nil c)) hfiles
  exact ⟨h.1, h.2.1⟩

/-- Counterexample for C7 as literally stated: no search result matches
intent `"formats"` and a matching source file exists, yet the file
fallback is not used — the non-matching keyword result makes the
primary fused set non-empty, the semantic-keep branch fires, and the
selection is the non-matching chunk. -/
theorem retrieve_rag_file_fallback_cex :
    source_matches_intent c7Kw.payload "formats" = false ∧
    (retrieveRagPipeline {} c7Env "q" (some "formats")).usedFileFallback = false ∧
    (retrieveRagPipeline {} c7Env "q" (some "formats")).selected = [c7Kw] ∧
    load_intent_chunks {} c7Env.files "formats" ≠ [] := by
  refine ⟨rfl, rfl, rfl, ?_⟩
  intro h
  have h2 : (load_intent_chunks ({} : RagConfig) c7Env.files "formats").length = 0 := by
    rw [h]; rfl
  rw [show (load_intent_chunks ({} : RagConfig) c7Env.files "formats").length
      = 1 from rfl] at h2
  exact Nat.one_ne_zero h2

lemma strInfix_refl (s : String) : strInfix s s :=
  ⟨[], [], by simp⟩

lemma strInfix_appendL (t : String) {sub s : String} (h : strInfix sub s) :
    strInfix sub (t ++ s) := by
  obtain ⟨pre, post, hp⟩ := h
  exact ⟨t.data ++ pre, post, by simp [hp]⟩

lemma strInfix_appendR (t : String) {sub s : String} (h : strInfix sub s) :
    strInfix sub (s ++ t) := by
  obtain ⟨pre, post, hp⟩ := h
  exact ⟨pre, post ++ t.data, by simp [hp]⟩

lemma strInfix_joinSep (sep : String) :
    ∀ (l : List String), ∀ h ∈ l, strInfix h (joinSepStr sep l) := by
  intro l
  induction l with
  | nil => intro h hm; simp at hm
  | cons s rest ih =>
      intro h hm
      cases rest with
      | nil =>
          rw [List.mem_singleton] at hm
          subst hm
          exact strInfix_refl h
      | cons t rest2 =>
          rw [show joinSepStr sep (s :: t :: rest2)
              = s ++ sep ++ joinSepStr sep (t :: rest2) from rfl]
          rcases List.mem_cons.mp hm with rfl | hm2
          · exact strInfix_appendR _ (strInfix_appendR _ (strInfix_refl h))
          · exact strInfix_appendL _ (ih h hm2)

/-- The diagnosability of `httpDetail`: it names the model and the
endpoint, reports the attempt count when several attempts were
configured, and quotes every history entry. -/
lemma httpDetail_mentions (cfg : EmbedConfig) (code : Nat) (body : String)
    (attempt attempts : Nat) (history : List String) (hh : history ≠ []) :
    strInfix cfg.model (httpDetail cfg code body attempt attempts history) ∧
    strInfix cfg.url (httpDetail cfg code body attempt attempts history) ∧
    (1 < attempts → strInfix (" after " ++ toString attempt ++ " attempt(s)")
      (httpDetail cfg code body attempt attempts history)) ∧
    ∀ h ∈ history, strInfix h (httpDetail cfg code body attempt attempts history) := by
  simp only [httpDetail]
  refine ⟨?_, ?_, ?_, ?_⟩
  · exact strInfix_appendR _ (strInfix_appendR _ (strInfix_appendR _ (strInfix_appendR _
      (strInfix_appendR _ (strInfix_appendR _ (strInfix_appendL _ (strInfix_refl _)))))))
  · exact strInfix_appendR _ (strInfix_appendR _ (strInfix_appendR _ (strInfix_appendR _
      (strInfix_appendL _ (strInfix_refl _)))))
  · intro hlt
    rw [if_pos hlt]
    exact strInfix_appendR _ (strInfix_appendL _ (strInfix_refl _))
  · intro h hm
    rw [if_pos hh]
    exact strInfix_appendL _ (strInfix_appendL _ (strInfix_joinSep " | " history h hm))

/-- The diagnosability of `netDetail`. -/
lemma netDetail_mentions (cfg : EmbedConfig) (msg : String)
    (attempt attempts : Nat) (history : List String) (hh : history ≠ []) :
    strInfix cfg.model (netDetail cfg msg attempt attempts history) ∧
    strInfix cfg.url (netDetail cfg msg attempt attempts history) ∧
    (1 < attempts → strInfix (" after " ++ toString attempt ++ " attempt(s)")
      (netDetail cfg msg attempt attempts history)) ∧
    ∀ h ∈ history, strInfix h (netDetail cfg msg attempt attempts history) := by
  simp only [netDetail]
  refine ⟨?_, ?_, ?_, ?_⟩
  · exact strInfix_appendR _ (strInfix_appendR _ (strInfix_appendR _ (strInfix_appendR _
      (strInfix_appendR _ (strInfix_appendR _ (strInfix_appendL _ (strInfix_refl _)))))))
  · exact strInfix_appendR _ (strInfix_appendR _ (strInfix_appendR _ (strInfix_appendR _
      (strInfix_appendL _ (strInfix_refl _)))))
  · intro hlt
    rw [if_pos hlt]
    exact strInfix_appendR _ (strInfix_appendL _ (strInfix_refl _))
  · intro h hm
    rw [if_pos hh]
    exact strInfix_appendL _ (strInfix_appendL _ (strInfix_joinSep " | " history h hm))

/-- Skipping a block of retryable failed attempts: the loop advances
the attempt counter, appends one history entry per failure, and sleeps
the capped linear backoff `min(0.5 * attempt, 2.0)` after each. -/
lemma embedLoop_skip (cfg : EmbedConfig) (texts : List String)
    (oracle : Nat → EmbedOutcome) (attempts : Nat) :
    ∀ (k attempt : Nat) (history : List String) (sleeps : List ℚ),
      attempt + k ≤ attempts →
      (∀ j, attempt ≤ j → j < attempt + k → outcomeRetries (oracle j)) →
      embedLoop cfg texts oracle attempts (attempts + 1 - attempt) attempt history sleeps
        = embedLoop cfg texts oracle attempts (attempts + 1 - (attempt + k)) (attempt + k)
            (history ++ (List.range k).map (fun j =>
              embedHistoryEntry attempts (attempt + j) (oracle (attempt + j))))
            (sleeps ++ (List.range k).map (fun j =>
              min (((attempt + j : Nat) : ℚ) / 2) 2)) := by
  intro k
  induction k with
  | zero => intro attempt history sleeps _ _; simp
  | succ k ih =>
      intro attempt history sleeps hle hret
      have hlt : attempt < attempts := by omega
      have hne : ¬ (attempt = attempts) := by omega
      have hfuel : attempts + 1 - attempt = (attempts - attempt) + 1 := by omega
      have hfuel2 : attempts - attempt = attempts + 1 - (attempt + 1) := by omega
      have hfun : ∀ j : Nat, attempt + 1 + j = attempt + (j + 1) := fun j => by omega
      have hretail : ∀ j, attempt + 1 ≤ j → j < attempt + 1 + k → outcomeRetries (oracle j) :=
        fun j h1 h2 => hret j (by omega) (by omega)
      have hr0 : outcomeRetries (oracle attempt) := hret attempt (le_refl _) (by omega)
      have harg : attempt + 1 + k = attempt + (k + 1) := by omega
      have hfe : (fun j => embedHistoryEntry attempts (attempt + 1 + j) (oracle (attempt + 1 + j)))
          = ((fun j => embedHistoryEntry attempts (attempt + j) (oracle (attempt + j)))
             ∘ Nat.succ) := by
        funext j
        simp only [Function.comp, Nat.succ_eq_add_one, hfun]
      have hfs : (fun j => min (((attempt + 1 + j : Nat) : ℚ) / 2) 2)
          = ((fun j => min (((attempt + j : Nat) : ℚ) / 2) 2) ∘ Nat.succ) := by
        funext j
        simp only [Function.comp, Nat.succ_eq_add_one, hfun]
      rw [hfuel]
      cases ho : oracle attempt with
      | success data =>
          rw [ho] at hr0
          exact absurd hr0 (fun f => f)
      | httpError code body elapsed =>
          have hrc : embedRetryable code = true := by rw [ho] at hr0; exact hr0
          have hcond : ¬ (¬ (embedRetryable code = true) ∨ attempt = attempts) := by
            simp [hrc, hne]
          simp only [embedLoop, ho]
          rw [if_neg hcond, hfuel2,
            ih (attempt + 1) (history ++ [httpHistoryEntry attempt attempts code body elapsed])
              (sleeps ++ [min ((attempt : ℚ) / 2) 2]) (by omega) hretail]
          rw [harg, List.append_assoc, List.append_assoc, List.range_succ_eq_map,
            List.map_cons, List.map_cons, List.map_map, List.map_map, ← hfe, ← hfs,
            List.singleton_append, List.singleton_append]
          simp only [Nat.add_zero]
          rw [ho]
          rfl
      | netError name msg elapsed =>
          simp only [embedLoop, ho]
          rw [if_neg hne, hfuel2,
            ih (attempt + 1) (history ++ [netHistoryEntry attempt attempts name msg elapsed])
              (sleeps ++ [min ((attempt : ℚ) / 2) 2]) (by omega) hretail]
          rw [harg, List.append_assoc, List.append_assoc, List.range_succ_eq_map,
            List.map_cons, List.map_cons, List.map_map, List.map_map, ← hfe, ← hfs,
            List.singleton_append, List.singleton_append]
          simp only [Nat.add_zero]
          rw [ho]
          rfl

/-- Claim C9: `embed_texts` fails immediately (one attempt, no sleep)
on a non-429 4xx HTTP error; retries retryable failures (timeouts,
`URLError`, 429 and 5xx) up to the configured count with capped linear
backoff `min(0.5 * attempt, 2.0)` and returns the vectors of the first
success; on exhaustion raises an error naming the model, the endpoint,
the attempt count and every per-attempt failure history entry; and a
success whose vector count differs from the input count raises
`"Embedding response size mismatch"` rather than returning partial
vectors. -/
theorem embed_texts_spec (cfg : EmbedConfig) (oracle : Nat → EmbedOutcome)
    (texts : List String) (ht : texts ≠ []) :
    (∀ code body elapsed, oracle 1 = .httpError code body elapsed →
      400 ≤ code → code < 500 → code ≠ 429 →
      embed_texts cfg oracle texts
        = { result := Except.error (httpDetail cfg code body 1 (cfg.maxRetries + 1)
              [httpHistoryEntry 1 (cfg.maxRetries + 1) code body elapsed])
            attemptsMade := 1, sleeps := [] } ∧
      strInfix cfg.model (httpDetail cfg code body 1 (cfg.maxRetries + 1)
        [httpHistoryEntry 1 (cfg.maxRetries + 1) code body elapsed]) ∧
      strInfix cfg.url (httpDetail cfg code body 1 (cfg.maxRetries + 1)
        [httpHistoryEntry 1 (cfg.maxRetries + 1) code body elapsed])) ∧
    (∀ k data, k < cfg.maxRetries + 1 →
      (∀ j, 1 ≤ j → j ≤ k → outcomeRetries (oracle j)) →
      oracle (k + 1) = .success data →
      data.length = texts.length →
      embed_texts cfg oracle texts
        = { result := Except.ok data, attemptsMade := k + 1,
            sleeps := (List.range k).map (fun j => min (((j + 1 : Nat) : ℚ) / 2) 2) }) ∧
    ((∀ j, 1 ≤ j → j < cfg.maxRetries + 1 → outcomeRetries (oracle j)) →
      outcomeFails (oracle (cfg.maxRetries + 1)) →
      (embed_texts cfg oracle texts).attemptsMade = cfg.maxRetries + 1 ∧
      ∃ d, (embed_texts cfg oracle texts).result = Except.error d ∧
        strInfix cfg.model d ∧ strInfix cfg.url d ∧
        (0 < cfg.maxRetries →
          strInfix (" after " ++ toString (cfg.maxRetries + 1) ++ " attempt(s)") d) ∧
        ∀ j, 1 ≤ j → j ≤ cfg.maxRetries + 1 →
          strInfix (embedHistoryEntry (cfg.maxRetries + 1) j (oracle j)) d) ∧
    (∀ data, oracle 1 = .success data → data.length ≠ texts.length →
      (embed_texts cfg oracle texts).result
        = Except.error "Embedding response size mismatch") := by
  refine ⟨?_, ?_, ?_, ?_⟩
  · intro code body elapsed h1 h400 h500 h429
    have hr : embedRetryable code = false := by
      simp only [embedRetryable]
      simp only [Bool.or_eq_false_iff, Bool.and_eq_false_iff]
      constructor
      · simp only [beq_eq_false_iff_ne]
        exact h429
      · left
        simp only [decide_eq_false_iff_not]
        omega
    have hres : embed_texts cfg oracle texts
        = { result := Except.error (httpDetail cfg code body 1 (cfg.maxRetries + 1)
              [httpHistoryEntry 1 (cfg.maxRetries + 1) code body elapsed])
            attemptsMade := 1, sleeps := [] } := by
      rw [embed_texts, if_neg ht]
      simp only [embedLoop, h1]
      rw [if_pos (Or.inl (by simp [hr]))]
      rfl
    exact ⟨hres, (httpDetail_mentions cfg code body 1 (cfg.maxRetries + 1) _
        (List.cons_ne_nil _ _)).1,
      (httpDetail_mentions cfg code body 1 (cfg.maxRetries + 1) _
        (List.cons_ne_nil _ _)).2.1⟩
  · intro k data hk hpre hsucc hlen
    have hstart : (cfg.maxRetries + 1) + 1 - 1 = cfg.maxRetries + 1 := by omega
    have hskip := embedLoop_skip cfg texts oracle (cfg.maxRetries + 1) k 1 [] []
      (by omega) (fun j hj1 hj2 => hpre j hj1 (by omega))
    rw [hstart] at hskip
    have hf : (cfg.maxRetries + 1) + 1 - (1 + k) = (cfg.maxRetries - k) + 1 := by omega
    rw [hf] at hskip
    have hatt : 1 + k = k + 1 := by omega
    rw [hatt] at hskip
    rw [embed_texts, if_neg ht, hskip]
    simp only [embedLoop, hsucc]
    rw [if_neg (by simp [hlen])]
    have hms : (fun j : Nat => min (((1 + j : Nat) : ℚ) / 2) 2)
        = (fun j : Nat => min (((j + 1 : Nat) : ℚ) / 2) 2) := by
      funext j
      rw [Nat.add_comm]
    rw [List.nil_append, hms]
  · intro hall hlast
    have hstart : (cfg.maxRetries + 1) + 1 - 1 = cfg.maxRetries + 1 := by omega
    have hskip := embedLoop_skip cfg texts oracle (cfg.maxRetries + 1) cfg.maxRetries 1 [] []
      (by omega) (fun j hj1 hj2 => hall j hj1 (by omega))
    rw [hstart] at hskip
    have hf : (cfg.maxRetries + 1) + 1 - (1 + cfg.maxRetries) = 0 + 1 := by omega
    rw [hf] at hskip
    have hatt : 1 + cfg.maxRetries = cfg.maxRetries + 1 := by omega
    rw [hatt] at hskip
    rw [List.nil_append, List.nil_append] at hskip
    cases holast : oracle (cfg.maxRetries + 1) with
    | success data =>
        rw [holast] at hlast
        exact absurd hlast (fun f => f)
    | httpError code body elapsed =>
        have hres : embed_texts cfg oracle texts
            = { result := Except.error (httpDetail cfg code body (cfg.maxRetries + 1)
                  (cfg.maxRetries + 1)
                  (((List.range cfg.maxRetries).map (fun j =>
                    embedHistoryEntry (cfg.maxRetries + 1) (1 + j) (oracle (1 + j))))
                   ++ [httpHistoryEntry (cfg.maxRetries + 1) (cfg.maxRetries + 1)
                        code body elapsed]))
                attemptsMade := cfg.maxRetries + 1
                sleeps := (List.range cfg.maxRetries).map (fun j =>
                  min (((1 + j : Nat) : ℚ) / 2) 2) } := by
          rw [embed_texts, if_neg ht, hskip]
          simp only [embedLoop, holast]
          simp only [or_true, if_true]
        have hmem : ∀ j, 1 ≤ j → j ≤ cfg.maxRetries + 1 →
            embedHistoryEntry (cfg.maxRetries + 1) j (oracle j) ∈
              (((List.range cfg.maxRetries).map (fun j =>
                embedHistoryEntry (cfg.maxRetries + 1) (1 + j) (oracle (1 + j))))
               ++ [httpHistoryEntry (cfg.maxRetries + 1) (cfg.maxRetries + 1)
                    code body elapsed]) := by
          intro j hj1 hj2
          by_cases hj : j ≤ cfg.maxRetries
          · apply List.mem_append_left
            apply List.mem_map.mpr
            refine ⟨j - 1, List.mem_range.mpr (by omega), ?_⟩
            have hjj : 1 + (j - 1) = j := by omega
            rw [hjj]
          · have hje : j = cfg.maxRetries + 1 := by omega
            subst hje
            apply List.mem_append_right
            rw [holast]
            exact List.mem_singleton.mpr rfl
        have hinf := httpDetail_mentions cfg code body (cfg.maxRetries + 1)
          (cfg.maxRetries + 1)
          (((List.range cfg.maxRetries).map (fun j =>
            embedHistoryEntry (cfg.maxRetries + 1) (1 + j) (oracle (1 + j))))
           ++ [httpHistoryEntry (cfg.maxRetries + 1) (cfg.maxRetries + 1)
                code body elapsed])
          (by simp)
        refine ⟨by rw [hres], ?_⟩
        refine ⟨_, by rw [hres], hinf.1, hinf.2.1, ?_, ?_⟩
        · intro hm
          exact hinf.2.2.1 (by omega)
        · intro j hj1 hj2
          exact hinf.2.2.2 _ (hmem j hj1 hj2)
    | netError name msg elapsed =>
        have hres : embed_texts cfg oracle texts
            = { result := Except.error (netDetail cfg msg (cfg.maxRetries + 1)
                  (cfg.maxRetries + 1)
                  (((List.range cfg.maxRetries).map (fun j =>
                    embedHistoryEntry (cfg.maxRetries + 1) (1 + j) (oracle (1 + j))))
                   ++ [netHistoryEntry (cfg.maxRetries + 1) (cfg.maxRetries + 1)
                        name msg elapsed]))
                attemptsMade := cfg.maxRetries + 1
                sleeps := (List.range cfg.maxRetries).map (fun j =>
                  min (((1 + j : Nat) : ℚ) / 2) 2) } := by
          rw [embed_texts, if_neg ht, hskip]
          simp only [embedLoop, holast]
          simp only [if_true]
        have hmem : ∀ j, 1 ≤ j → j ≤ cfg.maxRetries + 1 →
            embedHistoryEntry (cfg.maxRetries + 1) j (oracle j) ∈
              (((List.range cfg.maxRetries).map (fun j =>
                embedHistoryEntry (cfg.maxRetries + 1) (1 + j) (oracle (1 + j))))
               ++ [netHistoryEntry (cfg.maxRetries + 1) (cfg.maxRetries + 1)
                    name msg elapsed]) := by
          intro j hj1 hj2
          by_cases hj : j ≤ cfg.maxRetries
          · apply List.mem_append_left
            apply List.mem_map.mpr
            refine ⟨j - 1, List.mem_range.mpr (by omega), ?_⟩
            have hjj : 1 + (j - 1) = j := by omega
            rw [hjj]
          · have hje : j = cfg.maxRetries + 1 := by omega
            subst hje
            apply List.mem_append_right
            rw [holast]
            exact List.mem_singleton.mpr rfl
        have hinf := netDetail_mentions cfg msg (cfg.maxRetries + 1)
          (cfg.maxRetries + 1)
          (((List.range cfg.maxRetries).map (fun j =>
            embedHistoryEntry (cfg.maxRetries + 1) (1 + j) (oracle (1 + j))))
           ++ [netHistoryEntry (cfg.maxRetries + 1) (cfg.maxRetries + 1)
                name msg elapsed])
          (by simp)
        refine ⟨by rw [hres], ?_⟩
        refine ⟨_, by rw [hres], hinf.1, hinf.2.1, ?_, ?_⟩
        · intro hm
          exact hinf.2.2.1 (by omega)
        · intro j hj1 hj2
          exact hinf.2.2.2 _ (hmem j hj1 hj2)
  · intro data h1 hne
    rw [embed_texts, if_neg ht]
    simp only [embedLoop, h1]
    rw [if_pos hne]

/-- Witness for C9: one retryable failure followed by a success yields
the vectors after two attempts with one backoff sleep. -/
theorem embed_texts_spec_witness :
    embed_texts {} c9Oracle ["bonjour"]
      = { result := Except.ok [[(1 : ℚ)]], attemptsMade := 2,
          sleeps := (List.range 1).map (fun j => min (((j + 1 : Nat) : ℚ) / 2) 2) } :=
  (embed_texts_spec {} c9Oracle ["bonjour"] (List.cons_ne_nil _ _)).2.1 1 [[1]]
    (by decide)
    (fun j h1 h2 => by
      have hj : j = 1 := Nat.le_antisymm h2 h1
      subst hj
      exact trivial)
    rfl rfl

end TNRag
